import Mathlib

/-!
Verification of the ohlcv-hub data-acquisition-and-validation pipeline.

This file gives a shallow embedding of the core components of the
repository `ohlcv_hub` — the Alpaca bars fetch client with its 429
retry/backoff and proactive-throttle logic
(`src/ohlcv_hub/providers/alpaca.py`), the daily→weekly resampler
(`src/ohlcv_hub/resample.py`) and the validator
(`src/ohlcv_hub/validate.py`) — and proves properties of them.

Modelling conventions:
* floating-point seconds become rationals (`ℚ`); UNIX timestamps and
  integer header values become `ℤ`;
* an HTTP header is either absent, present-but-unparsable (the
  `try/except: pass` branches of the Python code), or a parsed value;
* the HTTP transport is an oracle: a list of responses consumed one per
  issued request, exactly like the `httpx.MockTransport` handlers of the
  repository's own tests; the injectable clock is a frozen rational
  `now`, the injectable sleeper is recorded as trace events.
-/

namespace OhlcvHub

/-- Header parsed with `float(...)` (the `Retry-After` header): absent,
present but unparsable (`ValueError` → skip), or a parsed rational. -/
inductive HF where
  | absent : HF
  | unparsable : HF
  | val : ℚ → HF
deriving DecidableEq, Repr

/-- Header parsed with `int(...)` (the `X-RateLimit-*` headers): absent,
present but unparsable (`ValueError` → skip), or a parsed integer. -/
inductive HI where
  | absent : HI
  | unparsable : HI
  | val : ℤ → HI
deriving DecidableEq, Repr

/-- MAX_RETRIES_PER_REQUEST = 5 (additional attempts after the first). -/
def MAX_RETRIES_PER_REQUEST : Nat := 5

/-- MAX_SLEEP_SECONDS = 5.0, the clamp for 429 retry delays. -/
def MAX_SLEEP_SECONDS : ℚ := 5

/-- BACKOFF_BASE_SECONDS = [0.5, 1, 2, 4]. -/
def BACKOFF_BASE_SECONDS : List ℚ := [1/2, 1, 2, 4]

/-- SAFETY_BUFFER_SECONDS = 0.25, added to proactive waits. -/
def SAFETY_BUFFER_SECONDS : ℚ := 1/4

/-- MAX_PROACTIVE_SLEEP_SECONDS = 10.0, the clamp for proactive waits. -/
def MAX_PROACTIVE_SLEEP_SECONDS : ℚ := 10

/-- The strategy names returned by `_compute_sleep_seconds_for_429`. -/
inductive Strategy where
  | retryAfter : Strategy
  | rateLimitReset : Strategy
  | backoff : Strategy
deriving DecidableEq, Repr

/-- One raw bar record of a page payload. Its contents are never
inspected by the fetch client, so it is modelled as an opaque tag. -/
abbrev RawBar := Nat

/-- One page of bars, as the JSON object `bars: {symbol: [bar...]}` —
an insertion-ordered association list, like a Python dict. -/
abbrev Page := List (String × List RawBar)

/-- An HTTP response as seen by `fetch_stock_bars`: status code, the
four relevant headers, and the decoded JSON payload fields. `jsonOk`
models whether `response.json()` succeeds on a 200 response. -/
structure Response where
  status : Nat
  retryAfter : HF
  rlLimit : HI
  rlRemaining : HI
  rlReset : HI
  bars : Page
  nextPageToken : Option String
  currency : Option String
  jsonOk : Bool
deriving DecidableEq, Repr

/-- Embedding of `AlpacaClient._compute_sleep_seconds_for_429`: first a
parsable `Retry-After` (seconds, clamped to [0, MAX_SLEEP_SECONDS]),
else a parsable `X-RateLimit-Reset` (epoch seconds; wait = reset −
int(now), clamped), else the backoff table indexed by the 0-based
attempt index, capped at MAX_SLEEP_SECONDS past the end of the table. -/
def computeSleep429 (now : ℚ) (resp : Response) (attemptIndex : Nat) : ℚ × Strategy :=
  match resp.retryAfter with
  | .val secs => (min (max 0 secs) MAX_SLEEP_SECONDS, .retryAfter)
  | _ =>
    match resp.rlReset with
    | .val resetTs => (min (max 0 ((resetTs - ⌊now⌋ : ℤ) : ℚ)) MAX_SLEEP_SECONDS, .rateLimitReset)
    | _ =>
      if attemptIndex < BACKOFF_BASE_SECONDS.length then
        (min (BACKOFF_BASE_SECONDS.getD attemptIndex 0) MAX_SLEEP_SECONDS, .backoff)
      else (MAX_SLEEP_SECONDS, .backoff)

/-- Embedding of the proactive throttle gate of `fetch_stock_bars`
(lines 261-268): when the carried remaining-quota and reset are both
known and remaining ≤ 1, wait (reset − now) + SAFETY_BUFFER_SECONDS
clamped to [0, MAX_PROACTIVE_SLEEP_SECONDS]; otherwise zero. -/
def computeProactiveWait (now : ℚ) (lastRemaining lastReset : Option ℤ) : ℚ :=
  match lastRemaining, lastReset with
  | some rem, some reset =>
    if rem ≤ 1 then max 0 (min ((reset : ℚ) - now + SAFETY_BUFFER_SECONDS) MAX_PROACTIVE_SLEEP_SECONDS)
    else 0
  | _, _ => 0

/-- The carried rate-limit state update of `fetch_stock_bars` (lines
300-305): a present, parsable header overwrites the carried value;
an absent or unparsable header leaves it unchanged. -/
def updOpt (header : HI) (old : Option ℤ) : Option ℤ :=
  match header with
  | .val z => some z
  | _ => old

/-- Observable side effects of one `fetch_stock_bars` call: an issued
page request (with its page token and the carried rate-limit state at
the moment of issue), a proactive sleep, or a 429 retry sleep with its
0-based attempt index. -/
inductive Ev where
  | request : Option String → Option ℤ → Option ℤ → Ev
  | sleepPro : ℚ → Ev
  | sleepRetry : Nat → ℚ → Ev
deriving DecidableEq, Repr

/-- The error category carried by a `ProviderError`. -/
inductive EKind where
  | rateLimited : EKind
  | httpFail : EKind
  | jsonFail : EKind
deriving DecidableEq, Repr

/-- A `ProviderError`: HTTP status code plus the message category
(`rateLimited` = "rate limited (429) after ... retries exhausted"). -/
structure PErr where
  status : Nat
  kind : EKind
deriving DecidableEq, Repr

/-- The merged result of a successful fetch (`BarsResponse`). -/
structure BarsResp where
  bars : Page
  currency : Option String
deriving DecidableEq, Repr

/-- Outcome of a fetch: success, a raised `ProviderError`, or the
transport oracle ran out of responses. -/
inductive FetchRes where
  | ok : BarsResp → FetchRes
  | err : PErr → FetchRes
  | outOfResponses : FetchRes
deriving DecidableEq, Repr

/-- Full observable outcome of one fetch: the result, the event trace,
and the page payloads that were successfully parsed and merged. -/
structure FetchOut where
  res : FetchRes
  trace : List Ev
  pages : List Page
deriving DecidableEq, Repr

/-- Mutable loop state of `fetch_stock_bars`: the page token, the
carried `last_remaining`/`last_reset`, the merged bars accumulator, the
captured currency, and `retries_used` for the in-flight request. -/
structure FetchState where
  tok : Option String
  rem : Option ℤ
  res : Option ℤ
  merged : Page
  cur : Option String
  used : Nat
deriving DecidableEq, Repr

/-- Step on a retry: bump `retries_used`; the carried rate-limit state
and the accumulators are untouched. -/
def bumpRetry (st : FetchState) : FetchState :=
  { st with used := st.used + 1 }

/-- Prefix extra events onto a fetch outcome's trace. -/
def withTrace (pre : List Ev) (o : FetchOut) : FetchOut :=
  { o with trace := pre ++ o.trace }

/-- Record one more merged page at the front of a fetch outcome. -/
def withPage (p : Page) (o : FetchOut) : FetchOut :=
  { o with pages := p :: o.pages }

/-- Merge one symbol's bar list into the accumulator: extend the entry
if the symbol was seen before, else append a fresh entry at the end
(Python dict insertion order). -/
def addBars : Page → String → List RawBar → Page
  | [], s, bl => [(s, bl)]
  | e :: rest, s, bl =>
    if e.1 = s then (e.1, e.2 ++ bl) :: rest else e :: addBars rest s bl

/-- Embedding of the merge step of `fetch_stock_bars` (lines 329-334):
fold every `(symbol, bar_list)` of the page into the accumulator. -/
def mergePage (m : Page) (p : Page) : Page :=
  p.foldl (fun acc e => addBars acc e.1 e.2) m

/-- The bars accumulated for one symbol (all entries with that key,
concatenated; a well-formed dict has at most one). -/
def symBars (m : Page) (s : String) : List RawBar :=
  ((m.filter (fun e => e.1 = s)).map (fun e => e.2)).flatten

/-- Embedding of the pagination loop of `fetch_stock_bars` (lines
254-346), as a state machine consuming one oracle response per issued
request. Each page iteration: proactive throttle (only before the
initial attempt, `used = 0`), issue the request, on a 429 with retry
budget left sleep per `computeSleep429` and retry the same request,
then update the carried rate-limit state from the final response of the
retry loop, fail on a terminal non-200 or a JSON decode failure, merge
the page, capture the currency from the first page supplying one, and
continue only on a non-empty next-page token. -/
def runFetch (now : ℚ) : List Response → FetchState → FetchOut
  | [], _ => ⟨.outOfResponses, [], []⟩
  | r :: rest, st =>
    let w := computeProactiveWait now st.rem st.res
    let pre := (if st.used = 0 then (if 0 < w then [Ev.sleepPro w] else []) else []) ++
      [Ev.request st.tok st.rem st.res]
    if r.status = 429 ∧ st.used < MAX_RETRIES_PER_REQUEST then
      let d := (computeSleep429 now r st.used).1
      withTrace (pre ++ [Ev.sleepRetry st.used d]) (runFetch now rest (bumpRetry st))
    else
      let rem2 := updOpt r.rlRemaining st.rem
      let res2 := updOpt r.rlReset st.res
      if r.status ≠ 200 then
        if r.status = 429 then ⟨.err ⟨429, .rateLimited⟩, pre, []⟩
        else ⟨.err ⟨r.status, .httpFail⟩, pre, []⟩
      else if r.jsonOk = false then ⟨.err ⟨200, .jsonFail⟩, pre, []⟩
      else
        let merged2 := mergePage st.merged r.bars
        let cur2 := match st.cur with
          | some c => some c
          | none => r.currency
        match r.nextPageToken with
        | none => ⟨.ok ⟨merged2, cur2⟩, pre, [r.bars]⟩
        | some t =>
          if t = "" then ⟨.ok ⟨merged2, cur2⟩, pre, [r.bars]⟩
          else withPage r.bars
            (withTrace pre (runFetch now rest ⟨some t, rem2, res2, merged2, cur2, 0⟩))

/-- Whitespace as recognized by Python `str.strip()` (restricted to the
common ASCII whitespace characters). -/
def isSpaceChar (ch : Char) : Bool := ch = ' ' ∨ ch = '\t' ∨ ch = '\n' ∨ ch = '\r'

/-- Drop leading whitespace characters. -/
def dropLeading : List Char → List Char
  | [] => []
  | ch :: t => if isSpaceChar ch then dropLeading t else ch :: t

/-- Python `str.strip()`: drop whitespace from both ends. -/
def pyStrip (s : String) : String :=
  ⟨(dropLeading (dropLeading s.data).reverse).reverse⟩

/-- Uppercase one character (ASCII letters, as enough of Python
`str.upper()` for ticker symbols). -/
def pyUpperChar (ch : Char) : Char :=
  if 'a' ≤ ch ∧ ch ≤ 'z' then Char.ofNat (ch.toNat - 32) else ch

/-- Python `str.upper()`. -/
def pyUpper (s : String) : String := ⟨s.data.map pyUpperChar⟩

/-- Symbol normalization of `fetch_stock_bars` (line 216):
`[s.upper().strip() for s in symbols if s.strip()]`. -/
def normalizeSymbols (symbols : List String) : List String :=
  (symbols.filter (fun s => pyStrip s ≠ "")).map (fun s => pyStrip (pyUpper s))

/-- Result of calling `fetch_stock_bars`: one of the two `ValueError`
input-validation failures, or a run of the pagination loop. -/
inductive FetchCall where
  | invalidLimit : FetchCall
  | noSymbols : FetchCall
  | run : FetchOut → FetchCall
deriving DecidableEq, Repr

/-- Embedding of `AlpacaClient.fetch_stock_bars`: validate the limit,
normalize the symbols and fail if none remain, then run the pagination
loop with empty initial state. -/
def fetch_stock_bars (symbols : List String) (lim : ℤ) (now : ℚ)
    (responses : List Response) : FetchCall :=
  if lim < 1 ∨ 10000 < lim then .invalidLimit
  else if normalizeSymbols symbols = [] then .noSymbols
  else .run (runFetch now responses ⟨none, none, none, [], none, 0⟩)

/-- Number of requests issued during a fetch. -/
def reqCount (o : FetchOut) : Nat :=
  o.trace.countP (fun e => match e with
    | .request _ _ _ => true
    | _ => false)

/-- The 429 retry sleeps of a fetch trace, in order, with their 0-based
attempt indices. -/
def retrySleeps (o : FetchOut) : List (Nat × ℚ) :=
  o.trace.filterMap (fun e => match e with
    | .sleepRetry i q => some (i, q)
    | _ => none)

/-- The proactive sleeps of a fetch trace, in order. -/
def proSleeps (o : FetchOut) : List ℚ :=
  o.trace.filterMap (fun e => match e with
    | .sleepPro q => some q
    | _ => none)

/-- The request events of a fetch trace, in order: page token and the
carried rate-limit state at the moment the request was issued. -/
def reqEvents (o : FetchOut) : List (Option String × Option ℤ × Option ℤ) :=
  o.trace.filterMap (fun e => match e with
    | .request t rm rs => some (t, rm, rs)
    | _ => none)

/-- A default response used only for out-of-range list reads. -/
def nullResponse : Response :=
  ⟨0, .absent, .absent, .absent, .absent, [], none, none, false⟩

/-- Claim C5 as stated, as a decidable check on a run: every response's
rate-limit headers overwrite the carried remaining/reset state before
the next request is issued. Request `i+1` is issued after response `i`
(requests and oracle responses are consumed in lof-step), so the state
recorded on request `i+1` must equal response `i`'s headers applied to
the state recorded on request `i`. -/
def claimC5Holds (rs : List Response) (o : FetchOut) : Bool :=
  let evs := reqEvents o
  ((evs.zip (evs.drop 1)).zip rs).all (fun pp =>
    decide (pp.1.2.2.1 = updOpt pp.2.rlRemaining pp.1.1.2.1) &&
    decide (pp.1.2.2.2 = updOpt pp.2.rlReset pp.1.1.2.2))

/-- Replace a response's next-page token, keeping every other field. -/
def setTok (r : Response) (t : Option String) : Response :=
  { r with nextPageToken := t }

/-! ### The normalized-row schema shared by the resampler and validator -/

/-- One row of the stable tabular schema. The OHLCV price fields
`open/high/low/close` are shortened to `o/h/l/c` and `volume` to `v`. -/
structure Row where
  symbol : String
  timeframe : String
  ts : ℤ
  o : ℚ
  h : ℚ
  l : ℚ
  c : ℚ
  v : ℤ
  source : String
  currency : String
  adjustment : String
deriving DecidableEq, Repr

/-- Helper of `uniqueFirst`: keep elements not in `seen`, remembering
the kept ones. -/
def uniqueFirstAux {α : Type} [DecidableEq α] : List α → List α → List α
  | [], _ => []
  | a :: rest, seen =>
    if a ∈ seen then uniqueFirstAux rest seen
    else a :: uniqueFirstAux rest (a :: seen)

/-- First-occurrence deduplication, the order produced by pandas
`Series.unique()` and by enumerating the groups of a resample. -/
def uniqueFirst {α : Type} [DecidableEq α] (l : List α) : List α :=
  uniqueFirstAux l []

/-! ### Validator (`src/ohlcv_hub/validate.py`) -/

/-- Stable sort key for `sort_values("ts")` on an indexed frame: order
by timestamp, breaking ties by the original row index. -/
def tsIdxLe (a b : Nat × Row) : Prop :=
  a.2.ts < b.2.ts ∨ (a.2.ts = b.2.ts ∧ a.1 ≤ b.1)

instance : DecidableRel tsIdxLe := fun a b => by
  unfold tsIdxLe; infer_instance

instance : IsTotal (Nat × Row) tsIdxLe :=
  ⟨fun a b => by
    rcases lt_trichotomy a.2.ts b.2.ts with h | h | h
    · exact Or.inl (Or.inl h)
    · rcases Nat.le_total a.1 b.1 with h' | h'
      · exact Or.inl (Or.inr ⟨h, h'⟩)
      · exact Or.inr (Or.inr ⟨h.symm, h'⟩)
    · exact Or.inr (Or.inl h)⟩

instance : IsTrans (Nat × Row) tsIdxLe :=
  ⟨fun a b c hab hbc => by
    rcases hab with h1 | ⟨h1, h1'⟩ <;> rcases hbc with h2 | ⟨h2, h2'⟩
    · exact Or.inl (h1.trans h2)
    · exact Or.inl (h2 ▸ h1)
    · exact Or.inl (h1 ▸ h2)
    · exact Or.inr ⟨h1.trans h2, h1'.trans h2'⟩⟩

/-- One reported non-monotonic example: symbol, previous timestamp and
offending timestamp. -/
structure NMEntry where
  symbol : String
  prevTs : ℤ
  nextTs : ℤ
deriving DecidableEq, Repr

/-- First adjacent pair `(prev, offending)` of a ts-sorted indexed frame
whose time delta is non-positive (`ts_diff <= Timedelta(0)`; the first
row's diff is NaT, which compares false, so only true pairs count). -/
def firstBadPair : List (Nat × Row) → Option ((Nat × Row) × (Nat × Row))
  | p :: q :: rest =>
    if q.2.ts - p.2.ts ≤ 0 then some (p, q) else firstBadPair (q :: rest)
  | _ => none

/-- Embedding of the per-symbol monotonic check of
`_validate_bars_issues` (lines 52-70): filter the frame to the symbol
keeping original indices, sort by ts, find the first adjacent pair with
non-positive delta, and report it only when the offending row's original
index label is positive (`if idx > 0`). -/
def nonMonoForSymbol (df : List Row) (s : String) : Option NMEntry :=
  let symDf := df.enum.filter (fun p => p.2.symbol = s)
  let sorted := symDf.insertionSort tsIdxLe
  if 1 < sorted.length then
    match firstBadPair sorted with
    | some (p, q) => if 0 < q.1 then some ⟨s, p.2.ts, q.2.ts⟩ else none
    | none => none
  else none

/-- The non-monotonic issue list: one optional example per symbol, in
first-appearance symbol order (`df["symbol"].unique()`). -/
def nonMonoList (df : List Row) : List NMEntry :=
  (uniqueFirst (df.map (fun r => r.symbol))).filterMap (nonMonoForSymbol df)

/-- One reported duplicate group: symbol, timestamp and group size. -/
structure DupEntry where
  symbol : String
  ts : ℤ
  count : Nat
deriving DecidableEq, Repr

/-- Embedding of the duplicates check (lines 44-49): every `(symbol,
ts)` group of size at least 2, reported with its size. -/
def dupList (df : List Row) : List DupEntry :=
  (uniqueFirst (df.map (fun r => (r.symbol, r.ts)))).filterMap (fun k =>
    let c := df.countP (fun r => r.symbol = k.1 ∧ r.ts = k.2)
    if 2 ≤ c then some ⟨k.1, k.2, c⟩ else none)

/-- The OHLC violation classifications, in check-priority order. -/
inductive OhlcIssue where
  | highLtMaxOpenClose : OhlcIssue
  | lowGtMinOpenClose : OhlcIssue
  | highLtLow : OhlcIssue
deriving DecidableEq, Repr

/-- Per-row OHLC classification (lines 80-104): `high < max(open,
close)`, else `low > min(open, close)`, else `high < low`; at most one
classification per row. -/
def ohlcIssueOf (r : Row) : Option OhlcIssue :=
  if r.h < max r.o r.c then some .highLtMaxOpenClose
  else if min r.o r.c < r.l then some .lowGtMinOpenClose
  else if r.h < r.l then some .highLtLow
  else none

/-- One reported OHLC violation sample with full field values. -/
structure OhlcEntry where
  symbol : String
  ts : ℤ
  o : ℚ
  h : ℚ
  l : ℚ
  c : ℚ
  issue : OhlcIssue
deriving DecidableEq, Repr

/-- All OHLC violations of the table, in row order. -/
def ohlcViolations (df : List Row) : List OhlcEntry :=
  df.filterMap (fun r =>
    (ohlcIssueOf r).map (fun i => ⟨r.symbol, r.ts, r.o, r.h, r.l, r.c, i⟩))

/-- One reported negative-volume sample. -/
structure VolEntry where
  symbol : String
  ts : ℤ
  v : ℤ
deriving DecidableEq, Repr

/-- All negative-volume violations of the table, in row order. -/
def volumeViolations (df : List Row) : List VolEntry :=
  (df.filter (fun r => r.v < 0)).map (fun r => ⟨r.symbol, r.ts, r.v⟩)

/-- The structural part of a validation report (`summary` + `issues`). -/
structure IssuesReport where
  symbolsCount : Nat
  barsCount : Nat
  startD : ℤ
  endD : ℤ
  duplicates : List DupEntry
  nonMonotonic : List NMEntry
  ohlcCount : Nat
  ohlcSamples : List OhlcEntry
  volumeCount : Nat
  volumeSamples : List VolEntry
deriving DecidableEq, Repr

/-- Embedding of `_validate_bars_issues`: the shared structural checks.
Returns the report and the `ok` flag (true iff all four issue
categories are empty). Sample lists are truncated to the first 20. -/
def validateBarsIssues (df : List Row) (startD endD : ℤ) : IssuesReport × Bool :=
  if df = [] then (⟨0, 0, startD, endD, [], [], 0, [], 0, []⟩, true)
  else
    let dups := dupList df
    let nm := nonMonoList df
    let ohlc := ohlcViolations df
    let vol := volumeViolations df
    (⟨(uniqueFirst (df.map (fun r => r.symbol))).length, df.length, startD, endD,
      dups, nm, ohlc.length, ohlc.take 20, vol.length, vol.take 20⟩,
     dups.isEmpty && nm.isEmpty && ohlc.isEmpty && vol.isEmpty)

/-- A daily or weekly validation report: the structural part plus the
`missing_days` section (per-symbol missing dates, an optional recorded
calendar failure, and the grand total). -/
structure DailyReport where
  base : IssuesReport
  missing : List (String × List ℤ)
  missingError : Option String
  missingTotal : Nat
deriving DecidableEq, Repr

/-- Embedding of `validate_daily_bars`. The trading-calendar
collaborator is the `calendar` argument (its sessions as local dates,
or a failure message — the `except Exception` branch); `localDate`
models the conversion of a UTC timestamp to a trading-timezone date. -/
def validate_daily_bars (df : List Row) (startD endD : ℤ)
    (calendar : Except String (List ℤ)) (localDate : ℤ → ℤ) : Bool × DailyReport :=
  let ro := validateBarsIssues df startD endD
  if df = [] then (true, ⟨ro.1, [], none, 0⟩)
  else
    match calendar with
    | .ok sessions =>
      let perSym := (uniqueFirst (df.map (fun r => r.symbol))).filterMap (fun s =>
        let present := (df.filter (fun r => r.symbol = s)).map (fun r => localDate r.ts)
        let missingDates := sessions.filter (fun d => d ∉ present)
        if missingDates.isEmpty then none else some (s, missingDates))
      (ro.2, ⟨ro.1, perSym, none, (perSym.map (fun p => p.2.length)).sum⟩)
    | .error e => (ro.2, ⟨ro.1, [], some e, 0⟩)

/-- Embedding of `validate_weekly_bars`: the shared structural checks
with the missing-days section fixed to empty/zero. -/
def validate_weekly_bars (df : List Row) (startD endD : ℤ) : Bool × DailyReport :=
  let ro := validateBarsIssues df startD endD
  (ro.2, ⟨ro.1, [], none, 0⟩)

/-! ### Heap model for the frame claim

pandas tables are mutable objects. To state that the validators never
mutate their input, table objects live in an explicit heap; filtering
and `.copy()` allocate fresh cells, and the one column assignment
(`symbol_df_ny["bar_date"] = ...`) writes to the cell it targets. A
cell row carries the optional derived `bar_date` column. -/

/-- A table object: rows plus the optional `bar_date` column. -/
abbrev Cell := List (Row × Option ℤ)

/-- The object heap; a table id is an index into it. -/
abbrev Heap := List Cell

/-- Allocate a fresh table object, returning the heap and its id. -/
def heapAlloc (hp : Heap) (cell : Cell) : Heap × Nat := (hp ++ [cell], hp.length)

/-- Read a table object. -/
def heapRead (hp : Heap) (i : Nat) : Cell := hp.getD i []

/-- Overwrite a table object in place. -/
def heapWrite (hp : Heap) (i : Nat) (cell : Cell) : Heap := hp.set i cell

/-- One iteration of the per-symbol calendar loop of
`validate_daily_bars` (lines 161-172) in the heap model:
`df[df["symbol"] == symbol]` allocates a filtered frame, `.copy()`
allocates a copy, and the `bar_date` column assignment writes to the
copy — never to the input frame. -/
def dailyHeapStep (localDate : ℤ → ℤ) (sessions : List ℤ) (dfId : Nat)
    (acc : List (String × List ℤ) × Heap) (s : String) :
    List (String × List ℤ) × Heap :=
  let hp := acc.2
  let dfCell := heapRead hp dfId
  let al1 := heapAlloc hp (dfCell.filter (fun p => p.1.symbol = s))
  let al2 := heapAlloc al1.1 (heapRead al1.1 al1.2)
  let h3 := heapWrite al2.1 al2.2
    ((heapRead al2.1 al2.2).map (fun p => (p.1, some (localDate p.1.ts))))
  let present := (heapRead h3 al2.2).filterMap (fun p => p.2)
  let missingDates := sessions.filter (fun d => d ∉ present)
  (acc.1 ++ (if missingDates.isEmpty then [] else [(s, missingDates)]), h3)

/-- The per-symbol calendar loop of `validate_daily_bars` in the heap
model. -/
def dailyHeapLoop (localDate : ℤ → ℤ) (sessions : List ℤ) (dfId : Nat)
    (syms : List String) (h0 : Heap) : List (String × List ℤ) × Heap :=
  syms.foldl (dailyHeapStep localDate sessions dfId) ([], h0)

/-- `validate_daily_bars` in the heap model: the input table is the
object at id 0; the returned heap is the post-call object state. -/
def validate_daily_bars_heap (df : List Row) (startD endD : ℤ)
    (calendar : Except String (List ℤ)) (localDate : ℤ → ℤ) :
    (Bool × DailyReport) × Heap :=
  let al := heapAlloc [] (df.map (fun r => (r, none)))
  let h0 := al.1
  let dfId := al.2
  let ro := validateBarsIssues ((heapRead h0 dfId).map (fun p => p.1)) startD endD
  if df = [] then ((true, ⟨ro.1, [], none, 0⟩), h0)
  else
    match calendar with
    | .ok sessions =>
      let lp := dailyHeapLoop localDate sessions dfId
        (uniqueFirst (((heapRead h0 dfId).map (fun p => p.1)).map (fun r => r.symbol))) h0
      ((ro.2, ⟨ro.1, lp.1, none, (lp.1.map (fun p => p.2.length)).sum⟩), lp.2)
    | .error e => ((ro.2, ⟨ro.1, [], some e, 0⟩), h0)

/-- `validate_weekly_bars` in the heap model: only reads the input. -/
def validate_weekly_bars_heap (df : List Row) (startD endD : ℤ) :
    (Bool × DailyReport) × Heap :=
  let al := heapAlloc [] (df.map (fun r => (r, none)))
  let ro := validateBarsIssues ((heapRead al.1 al.2).map (fun p => p.1)) startD endD
  ((ro.2, ⟨ro.1, [], none, 0⟩), al.1)

/-! ### Resampler (`src/ohlcv_hub/resample.py`) -/

/-- Chronological order used by `set_index("ts").sort_index()`. -/
def tsLe (a b : Row) : Prop := a.ts ≤ b.ts

instance : DecidableRel tsLe := fun a b => by
  unfold tsLe; infer_instance

instance : IsTotal Row tsLe := ⟨fun a b => Int.le_total a.ts b.ts⟩

instance : IsTrans Row tsLe := ⟨fun _ _ _ hab hbc => Int.le_trans hab hbc⟩

/-- Sort rows chronologically. -/
def sortByTs (l : List Row) : List Row := l.insertionSort tsLe

/-- Final output order of `to_weekly` (`sort_values(["symbol", "ts"])`). -/
def symTsLe (a b : Row) : Prop :=
  a.symbol < b.symbol ∨ (a.symbol = b.symbol ∧ a.ts ≤ b.ts)

instance : DecidableRel symTsLe := fun a b => by
  unfold symTsLe; infer_instance

instance : IsTotal Row symTsLe :=
  ⟨fun a b => by
    rcases lt_trichotomy a.symbol b.symbol with h | h | h
    · exact Or.inl (Or.inl h)
    · rcases Int.le_total a.ts b.ts with h' | h'
      · exact Or.inl (Or.inr ⟨h, h'⟩)
      · exact Or.inr (Or.inr ⟨h.symm, h'⟩)
    · exact Or.inr (Or.inl h)⟩

instance : IsTrans Row symTsLe :=
  ⟨fun a b c hab hbc => by
    rcases hab with h1 | ⟨h1, h1'⟩ <;> rcases hbc with h2 | ⟨h2, h2'⟩
    · exact Or.inl (h1.trans h2)
    · exact Or.inl (h2 ▸ h1)
    · exact Or.inl (h1 ▸ h2)
    · exact Or.inr ⟨h1.trans h2, h1'.trans h2'⟩⟩

/-- Monday 00:00:00 UTC at or before `t` (seconds since the UNIX
epoch): the left edge of the `W-MON, label="left", closed="left"`
resample bucket containing `t`. 345600 = 1970-01-05 (a Monday),
604800 = seconds per week. -/
def weekStart (t : ℤ) : ℤ := t - (t - 345600) % 604800

/-- Aggregate one non-empty week bucket (rows already chronologically
sorted): open = first, high = max, low = min, close = last, volume =
sum; metadata comes from the symbol's chronologically-first daily row.
An empty bucket yields nothing (`dropna(subset=["open"])`). -/
def aggWeek (s : String) (meta : Row) (w : ℤ) : List Row → Option Row
  | [] => none
  | b :: bs => some
      { symbol := s, timeframe := "1w", ts := w,
        o := b.o,
        h := bs.foldl (fun acc r => max acc r.h) b.h,
        l := bs.foldl (fun acc r => min acc r.l) b.l,
        c := (bs.getLastD b).c,
        v := ((b :: bs).map (fun r => r.v)).sum,
        source := meta.source, currency := meta.currency,
        adjustment := meta.adjustment }

/-- One symbol's weekly rows: sort the symbol's daily rows
chronologically, bucket by Monday-anchored week start, and aggregate
each non-empty bucket (`resample("W-MON", label="left", closed="left")`
followed by `dropna` keeps exactly the distinct week starts present);
metadata comes from the chronologically-first daily row. -/
def weeklyPart (df : List Row) (s : String) : List Row :=
  let symSorted := sortByTs (df.filter (fun r => r.symbol = s))
  match symSorted with
  | [] => []
  | m :: _ =>
    let weeks := uniqueFirst (symSorted.map (fun r => weekStart r.ts))
    weeks.filterMap (fun w =>
      aggWeek s m w (symSorted.filter (fun r => weekStart r.ts = w)))

/-- Embedding of `to_weekly`: per symbol (first-appearance order) build
the weekly rows, then sort the concatenation by (symbol, ts). -/
def to_weekly (df : List Row) : List Row :=
  if df.isEmpty then []
  else ((uniqueFirst (df.map (fun r => r.symbol))).map
    (weeklyPart df)).flatten.insertionSort symTsLe

/-- The daily rows contributing to one (symbol, week-start) bucket. -/
def bucketOf (df : List Row) (s : String) (w : ℤ) : List Row :=
  df.filter (fun r => r.symbol = s ∧ weekStart r.ts = w)

/-! ### Concrete instances used by witnesses and counterexamples -/

/-- A plain daily row with flat prices. -/
def mkRow (s : String) (t : ℤ) : Row :=
  ⟨s, "1d", t, 1, 1, 1, 1, 0, "alpaca", "USD", "raw"⟩

/-- A 429 response with `Retry-After: 7`. -/
def c4resp : Response := ⟨429, .val 7, .absent, .absent, .absent, [], none, none, true⟩

/-- A one-row daily table. -/
def c9df : List Row := [mkRow "SPY" 0]

/-- A 429 response with `Retry-After: 1` (as in the repository's
retry-exhaustion test). -/
def w429 : Response := ⟨429, .val 1, .absent, .absent, .absent, [], none, none, true⟩

/-- A successful page whose payload carries an empty-string next-page
token. -/
def c6resp : Response :=
  ⟨200, .absent, .absent, .absent, .absent, [("SPY", [1])], some "", none, true⟩

/-- A 429 response carrying `X-RateLimit-Remaining: 0` and
`X-RateLimit-Reset: 2000` (plus `Retry-After: 0` so the retry sleeps
zero seconds). -/
def c5r1 : Response := ⟨429, .val 0, .absent, .val 0, .val 2000, [], none, none, true⟩

/-- A successful page with no rate-limit headers and a next-page token. -/
def c5r2 : Response :=
  ⟨200, .absent, .absent, .absent, .absent, [("SPY", [1])], some "t", some "USD", true⟩

/-- A successful final page with no rate-limit headers. -/
def c5r3 : Response :=
  ⟨200, .absent, .absent, .absent, .absent, [("SPY", [2])], none, some "USD", true⟩

/-- The response sequence of the C5 counterexample run. -/
def c5rs : List Response := [c5r1, c5r2, c5r3]

/-- First page of the C8 witness run: AAPL bars and a token. -/
def c8p1 : Response :=
  ⟨200, .absent, .absent, .absent, .absent, [("AAPL", [1, 2])], some "tok1", some "USD", true⟩

/-- Second page of the C8 witness run: more AAPL bars plus TSLA. -/
def c8p2 : Response :=
  ⟨200, .absent, .absent, .absent, .absent, [("AAPL", [3]), ("TSLA", [4, 5])], none, some "USD", true⟩

/-- A table whose rows are strictly ts-descending for symbol "A". -/
def c1df : List Row := [mkRow "A" 2, mkRow "A" 1]

/-- A table with two equal timestamps for symbol "A" (a genuine
non-monotonicity after sorting). -/
def c1dupDf : List Row := [mkRow "A" 1, mkRow "A" 1, mkRow "A" 2]

/-- Two daily rows of one Monday-anchored week (Monday 1970-01-05 and
Tuesday 1970-01-06, both 00:00 UTC) for symbol "A". -/
def c3df : List Row :=
  [⟨"A", "1d", 345600, 10, 12, 9, 11, 100, "alpaca", "USD", "raw"⟩,
   ⟨"A", "1d", 432000, 11, 14, 10, 13, 50, "alpaca", "USD", "raw"⟩]

end OhlcvHub

namespace OhlcvHub

/-! ## Theorems -/

/-- Projection lemma used throughout: the fields of `setTok`. -/
theorem setTok_fields (r : Response) (t : Option String) :
    (setTok r t).status = r.status ∧ (setTok r t).retryAfter = r.retryAfter ∧
    (setTok r t).rlRemaining = r.rlRemaining ∧ (setTok r t).rlReset = r.rlReset ∧
    (setTok r t).bars = r.bars ∧ (setTok r t).currency = r.currency ∧
    (setTok r t).jsonOk = r.jsonOk ∧ (setTok r t).nextPageToken = t := by
  simp [setTok]

/-- C4: the 429 retry-delay computation applies its strategies with
first-match-wins precedence: a parsable `Retry-After` gives its value
clamped to [0, 5]; otherwise a parsable `X-RateLimit-Reset` gives
(reset − now) clamped to [0, 5]; otherwise the backoff table
{0.5, 1, 2, 4} indexed by the 0-based attempt index, 5 past the end of
the table. An absent or unparsable header is skipped to the next
strategy, never an error. -/
theorem c4_retry_delay_policy (now : ℚ) (resp : Response) (i : Nat) :
    (∀ q, resp.retryAfter = .val q →
      computeSleep429 now resp i = (min (max 0 q) MAX_SLEEP_SECONDS, .retryAfter))
    ∧ ((resp.retryAfter = .absent ∨ resp.retryAfter = .unparsable) →
        (∀ z, resp.rlReset = .val z →
          computeSleep429 now resp i =
            (min (max 0 (((z - ⌊now⌋ : ℤ) : ℚ))) MAX_SLEEP_SECONDS, .rateLimitReset))
        ∧ ((resp.rlReset = .absent ∨ resp.rlReset = .unparsable) →
            (i < 4 → computeSleep429 now resp i =
              (BACKOFF_BASE_SECONDS.getD i 0, .backoff))
            ∧ (4 ≤ i → computeSleep429 now resp i = (MAX_SLEEP_SECONDS, .backoff)))) := by
  refine ⟨fun q hq => by simp [computeSleep429, hq], fun hra => ?_⟩
  have hra' : ∀ P : ℚ × Strategy,
      (match resp.retryAfter with
        | .val secs => (min (max 0 secs) MAX_SLEEP_SECONDS, Strategy.retryAfter)
        | _ => P) = P := by
    rcases hra with h | h <;> rw [h] <;> intro P <;> rfl
  constructor
  · intro z hz
    simp only [computeSleep429, hra', hz]
  · intro hrs
    have hrs' : ∀ P : ℚ × Strategy,
        (match resp.rlReset with
          | .val resetTs =>
            (min (max 0 (((resetTs - ⌊now⌋ : ℤ) : ℚ))) MAX_SLEEP_SECONDS,
              Strategy.rateLimitReset)
          | _ => P) = P := by
      rcases hrs with h | h <;> rw [h] <;> intro P <;> rfl
    constructor
    · intro hi
      simp only [computeSleep429, hra', hrs']
      rw [if_pos (by simpa [BACKOFF_BASE_SECONDS] using hi)]
      interval_cases i <;> simp [BACKOFF_BASE_SECONDS, MAX_SLEEP_SECONDS] <;> norm_num
    · intro hi
      simp only [computeSleep429, hra', hrs']
      rw [if_neg (by simp [BACKOFF_BASE_SECONDS]; omega)]

/-- Witness for C4 at a concrete input: `Retry-After: 7` on the first
retry yields a delay of 5 seconds (clamped) under the Retry-After
strategy. -/
theorem c4_witness : computeSleep429 0 c4resp 0 = (5, .retryAfter) := by
  have h := (c4_retry_delay_policy 0 c4resp 0).1 7 rfl
  rw [h]
  norm_num [MAX_SLEEP_SECONDS]

/-- C7: the proactive gate before each page request sleeps
(reset − now) + 0.25 clamped to [0, 10] exactly when the carried
remaining-quota is ≤ 1 and a reset is known; when remaining > 1 or
either piece of state is unknown the delay is zero; and the trace of a
page iteration starts with that proactive sleep (when positive)
followed by the page request. -/
theorem c7_proactive_gate (now : ℚ) (rem res : Option ℤ) :
    (∀ r z, rem = some r → res = some z → r ≤ 1 →
      computeProactiveWait now rem res =
        max 0 (min ((z : ℚ) - now + SAFETY_BUFFER_SECONDS) MAX_PROACTIVE_SLEEP_SECONDS))
    ∧ (∀ r, rem = some r → 1 < r → computeProactiveWait now rem res = 0)
    ∧ (rem = none → computeProactiveWait now rem res = 0)
    ∧ (res = none → computeProactiveWait now rem res = 0)
    ∧ (∀ r rest tok merged cur, ∃ t,
        (runFetch now (r :: rest) ⟨tok, rem, res, merged, cur, 0⟩).trace =
          (if 0 < computeProactiveWait now rem res then
            [Ev.sleepPro (computeProactiveWait now rem res)] else []) ++
          Ev.request tok rem res :: t) := by
  refine ⟨?_, ?_, ?_, ?_, ?_⟩
  · intro r z hr hz hle
    simp [computeProactiveWait, hr, hz, hle]
  · intro r hr hgt
    cases res with
    | none => simp [computeProactiveWait, hr]
    | some z => simp [computeProactiveWait, hr, not_le.mpr hgt]
  · intro h; simp [computeProactiveWait, h]
  · intro h
    cases rem with
    | none => simp [computeProactiveWait, h]
    | some r => simp [computeProactiveWait, h]
  · intro r rest tok merged cur
    simp only [runFetch, withTrace, withPage, if_true, ite_true]
    by_cases hw : 0 < computeProactiveWait now rem res
    · simp only [if_pos hw]
      repeat' split
      all_goals simp only [List.append_assoc, List.singleton_append,
        List.cons_append, List.nil_append, List.append_nil]
      all_goals exact ⟨_, rfl⟩
    · simp only [if_neg hw]
      repeat' split
      all_goals simp only [List.append_assoc, List.singleton_append,
        List.cons_append, List.nil_append, List.append_nil]
      all_goals exact ⟨_, rfl⟩

/-- Witness for C7 at a concrete input: remaining = 0 and
reset = now + 1 yields a 1.25-second proactive wait, and no carried
state yields zero. -/
theorem c7_witness :
    computeProactiveWait 1000 (some 0) (some 1001) = 5/4 ∧
    computeProactiveWait 1000 none none = 0 := by
  constructor
  · have h := (c7_proactive_gate 1000 (some 0) (some 1001)).1 0 1001 rfl rfl (by norm_num)
    rw [h]
    norm_num [SAFETY_BUFFER_SECONDS, MAX_PROACTIVE_SLEEP_SECONDS]
  · exact (c7_proactive_gate 1000 none none).2.2.1 rfl

/-- C9: on a non-empty table, a failing trading-calendar provider never
propagates out of `validate_daily_bars`: the call returns normally with
the failure reason recorded, a zero missing-days total, and the
structural report and ok flag exactly as `_validate_bars_issues`
produced them. -/
theorem c9_calendar_failure_is_recovered (df : List Row) (startD endD : ℤ)
    (err : String) (localDate : ℤ → ℤ) (hne : df ≠ []) :
    validate_daily_bars df startD endD (.error err) localDate =
      ((validateBarsIssues df startD endD).2,
       ⟨(validateBarsIssues df startD endD).1, [], some err, 0⟩) := by
  unfold validate_daily_bars
  rw [if_neg hne]

/-- Witness for C9: a concrete one-row table with a failing calendar
still validates, records the reason, and reports zero missing days. -/
theorem c9_witness :
    validate_daily_bars c9df 0 1 (.error "unknown exchange") (fun t => t) =
      ((validateBarsIssues c9df 0 1).2,
       ⟨(validateBarsIssues c9df 0 1).1, [], some "unknown exchange", 0⟩) :=
  c9_calendar_failure_is_recovered c9df 0 1 "unknown exchange" (fun t => t)
    (by decide)

/-- Setting a non-zero heap index leaves the object at index 0 alone. -/
theorem getD_set_of_pos (l : Heap) (i : Nat) (cell : Cell) (hi : i ≠ 0) :
    (l.set i cell).getD 0 [] = l.getD 0 [] := by
  cases l with
  | nil => simp
  | cons a t =>
    cases i with
    | zero => exact absurd rfl hi
    | succ n => simp [List.set]

/-- Allocating at the end of a non-empty heap leaves index 0 alone. -/
theorem getD_append_of_ne_nil (l : Heap) (cell : Cell) (hl : l ≠ []) :
    (l ++ [cell]).getD 0 [] = l.getD 0 [] := by
  cases l with
  | nil => exact absurd rfl hl
  | cons a t => simp

/-- One calendar-loop iteration never touches the input table object
(id 0) and keeps the heap non-empty. -/
theorem dailyHeapStep_frame (localDate : ℤ → ℤ) (sessions : List ℤ)
    (acc : List (String × List ℤ) × Heap) (s : String) (hne : acc.2 ≠ []) :
    heapRead (dailyHeapStep localDate sessions 0 acc s).2 0 = heapRead acc.2 0 ∧
    (dailyHeapStep localDate sessions 0 acc s).2 ≠ [] := by
  unfold dailyHeapStep heapAlloc heapWrite heapRead
  constructor
  · rw [getD_set_of_pos _ _ _ (by simp), getD_append_of_ne_nil _ _ (by simp),
      getD_append_of_ne_nil _ _ hne]
  · intro hcontra
    have := congrArg List.length hcontra
    simp at this

/-- The whole calendar loop never touches the input table object. -/
theorem dailyHeapFold_frame (localDate : ℤ → ℤ) (sessions : List ℤ) :
    ∀ (syms : List String) (acc : List (String × List ℤ) × Heap), acc.2 ≠ [] →
      heapRead (syms.foldl (dailyHeapStep localDate sessions 0) acc).2 0 =
        heapRead acc.2 0 ∧
      (syms.foldl (dailyHeapStep localDate sessions 0) acc).2 ≠ [] := by
  intro syms
  induction syms with
  | nil => exact fun acc h => ⟨rfl, h⟩
  | cons s rest ih =>
    intro acc hne
    rw [List.foldl_cons]
    have hstep := dailyHeapStep_frame localDate sessions acc s hne
    have hrest := ih (dailyHeapStep localDate sessions 0 acc s) hstep.2
    exact ⟨hrest.1.trans hstep.1, hrest.2⟩

/-- C10: `validate_daily_bars` and `validate_weekly_bars` never modify
the input table: in the heap model, the table object at id 0 holds the
same rows, field values and row order after either call as before (the
daily calendar check derives its local dates on a copy). -/
theorem c10_validators_do_not_mutate_input (df : List Row) (startD endD : ℤ)
    (calendar : Except String (List ℤ)) (localDate : ℤ → ℤ) :
    heapRead (validate_daily_bars_heap df startD endD calendar localDate).2 0 =
      df.map (fun r => (r, none)) ∧
    heapRead (validate_weekly_bars_heap df startD endD).2 0 =
      df.map (fun r => (r, none)) := by
  constructor
  · unfold validate_daily_bars_heap
    by_cases hdf : df = []
    · simp [hdf, heapAlloc, heapRead]
    · rw [if_neg hdf]
      cases calendar with
      | error e => simp [heapAlloc, heapRead]
      | ok sessions =>
        simp only [heapAlloc, List.nil_append, List.length_nil]
        have := dailyHeapFold_frame localDate sessions
          (uniqueFirst ((((heapRead [df.map (fun r => (r, none))] 0).map
            (fun p => p.1)).map (fun r => r.symbol))))
          ([], [df.map (fun r => (r, none))]) (by simp)
        simpa [dailyHeapLoop, heapRead] using this.1
  · simp [validate_weekly_bars_heap, heapAlloc, heapRead]

/-- Unfolding lemma: a 429 response with retry budget left sleeps per
`computeSleep429` on the 0-based `retries_used` and retries the same
request with the state otherwise unchanged. -/
theorem runFetch_retry_step (now : ℚ) (r : Response) (rest : List Response)
    (st : FetchState) (h429 : r.status = 429)
    (hu : st.used < MAX_RETRIES_PER_REQUEST) :
    runFetch now (r :: rest) st =
      withTrace
        (((if st.used = 0 then
            (if 0 < computeProactiveWait now st.rem st.res then
              [Ev.sleepPro (computeProactiveWait now st.rem st.res)] else []) else []) ++
          [Ev.request st.tok st.rem st.res]) ++
          [Ev.sleepRetry st.used (computeSleep429 now r st.used).1])
        (runFetch now rest (bumpRetry st)) := by
  simp only [runFetch]
  rw [if_pos ⟨h429, hu⟩]

/-- Unfolding lemma: a 429 response with the retry budget exhausted
raises the rate-limited `ProviderError` with status 429. -/
theorem runFetch_429_exhausted (now : ℚ) (r : Response) (rest : List Response)
    (st : FetchState) (h429 : r.status = 429)
    (hu : ¬ st.used < MAX_RETRIES_PER_REQUEST) :
    runFetch now (r :: rest) st =
      ⟨.err ⟨429, .rateLimited⟩,
       (if st.used = 0 then
          (if 0 < computeProactiveWait now st.rem st.res then
            [Ev.sleepPro (computeProactiveWait now st.rem st.res)] else []) else []) ++
        [Ev.request st.tok st.rem st.res], []⟩ := by
  simp only [runFetch]
  rw [if_neg (fun hc => hu hc.2), if_pos (by simp [h429]), if_pos h429]

/-- C2: when six consecutive responses to the same page request are all
429, `fetch_stock_bars` retries exactly 5 additional times, each retry
preceded by exactly one sleep computed from the 0-based retry attempt
index and that 429 response's own headers, and then raises a
`ProviderError` carrying status 429 and the retries-exhausted message;
the sleep primitive runs exactly 5 times (6 requests total are issued,
none beyond the 6th response). -/
theorem c2_429_retries_exhausted (symbols : List String) (lim : ℤ) (now : ℚ)
    (r0 r1 r2 r3 r4 r5 : Response) (tail : List Response)
    (hl1 : 1 ≤ lim) (hl2 : lim ≤ 10000) (hsym : normalizeSymbols symbols ≠ [])
    (h0 : r0.status = 429) (h1 : r1.status = 429) (h2 : r2.status = 429)
    (h3 : r3.status = 429) (h4 : r4.status = 429) (h5 : r5.status = 429) :
    fetch_stock_bars symbols lim now (r0 :: r1 :: r2 :: r3 :: r4 :: r5 :: tail) =
      .run ⟨.err ⟨429, .rateLimited⟩,
        [Ev.request none none none,
         Ev.sleepRetry 0 (computeSleep429 now r0 0).1, Ev.request none none none,
         Ev.sleepRetry 1 (computeSleep429 now r1 1).1, Ev.request none none none,
         Ev.sleepRetry 2 (computeSleep429 now r2 2).1, Ev.request none none none,
         Ev.sleepRetry 3 (computeSleep429 now r3 3).1, Ev.request none none none,
         Ev.sleepRetry 4 (computeSleep429 now r4 4).1, Ev.request none none none], []⟩
    ∧ retrySleeps ⟨.err ⟨429, .rateLimited⟩,
        [Ev.request none none none,
         Ev.sleepRetry 0 (computeSleep429 now r0 0).1, Ev.request none none none,
         Ev.sleepRetry 1 (computeSleep429 now r1 1).1, Ev.request none none none,
         Ev.sleepRetry 2 (computeSleep429 now r2 2).1, Ev.request none none none,
         Ev.sleepRetry 3 (computeSleep429 now r3 3).1, Ev.request none none none,
         Ev.sleepRetry 4 (computeSleep429 now r4 4).1, Ev.request none none none], []⟩ =
        [(0, (computeSleep429 now r0 0).1), (1, (computeSleep429 now r1 1).1),
         (2, (computeSleep429 now r2 2).1), (3, (computeSleep429 now r3 3).1),
         (4, (computeSleep429 now r4 4).1)]
    ∧ reqCount ⟨.err ⟨429, .rateLimited⟩,
        [Ev.request none none none,
         Ev.sleepRetry 0 (computeSleep429 now r0 0).1, Ev.request none none none,
         Ev.sleepRetry 1 (computeSleep429 now r1 1).1, Ev.request none none none,
         Ev.sleepRetry 2 (computeSleep429 now r2 2).1, Ev.request none none none,
         Ev.sleepRetry 3 (computeSleep429 now r3 3).1, Ev.request none none none,
         Ev.sleepRetry 4 (computeSleep429 now r4 4).1, Ev.request none none none], []⟩ = 6 := by
  refine ⟨?_, rfl, rfl⟩
  have hLim : ¬(lim < 1 ∨ 10000 < lim) := by
    push_neg
    exact ⟨by omega, by omega⟩
  unfold fetch_stock_bars
  rw [if_neg hLim, if_neg hsym]
  rw [runFetch_retry_step now r0 _ _ h0 (by norm_num [MAX_RETRIES_PER_REQUEST]),
      runFetch_retry_step now r1 _ _ h1 (by norm_num [MAX_RETRIES_PER_REQUEST, bumpRetry]),
      runFetch_retry_step now r2 _ _ h2 (by norm_num [MAX_RETRIES_PER_REQUEST, bumpRetry]),
      runFetch_retry_step now r3 _ _ h3 (by norm_num [MAX_RETRIES_PER_REQUEST, bumpRetry]),
      runFetch_retry_step now r4 _ _ h4 (by norm_num [MAX_RETRIES_PER_REQUEST, bumpRetry]),
      runFetch_429_exhausted now r5 _ _ h5 (by norm_num [MAX_RETRIES_PER_REQUEST, bumpRetry])]
  simp [withTrace, bumpRetry, computeProactiveWait]

/-- Witness for C2 at a concrete input: six `Retry-After: 1` 429
responses exhaust the budget with five 1-second sleeps. -/
theorem c2_witness :
    fetch_stock_bars ["SPY"] 100 0 [w429, w429, w429, w429, w429, w429] =
      .run ⟨.err ⟨429, .rateLimited⟩,
        [Ev.request none none none,
         Ev.sleepRetry 0 1, Ev.request none none none,
         Ev.sleepRetry 1 1, Ev.request none none none,
         Ev.sleepRetry 2 1, Ev.request none none none,
         Ev.sleepRetry 3 1, Ev.request none none none,
         Ev.sleepRetry 4 1, Ev.request none none none], []⟩ := by
  have h := (c2_429_retries_exhausted ["SPY"] 100 0 w429 w429 w429 w429 w429 w429 []
    (by norm_num) (by norm_num) (by decide) rfl rfl rfl rfl rfl rfl).1
  rw [h]
  norm_num [computeSleep429, w429, MAX_SLEEP_SECONDS]

/-- The 429 retry delay never reads the next-page token. -/
theorem computeSleep429_setTok (now : ℚ) (t : Option String) (r : Response)
    (i : Nat) : computeSleep429 now (setTok r t) i = computeSleep429 now r i := rfl

/-- Amended C6: a present-but-empty-string next-page token behaves
identically to an absent token — the whole fetch outcome is unchanged —
and a successful page carrying either one terminates pagination
immediately: the request that produced it is the only request of that
step, no additional request follows, and the merged result is
returned. -/
theorem c6_empty_token_equals_absent (now : ℚ) (r : Response)
    (rest : List Response) (st : FetchState) :
    runFetch now (setTok r (some "") :: rest) st =
      runFetch now (setTok r none :: rest) st
    ∧ (r.status = 200 → r.jsonOk = true →
        (r.nextPageToken = none ∨ r.nextPageToken = some "") →
        reqCount (runFetch now (r :: rest) st) = 1 ∧
        (runFetch now (r :: rest) st).res =
          .ok ⟨mergePage st.merged r.bars,
            match st.cur with
            | some c => some c
            | none => r.currency⟩) := by
  constructor
  · simp only [runFetch, computeSleep429_setTok]
    simp [setTok]
  · intro h200 hjson htok
    have hnot429 : ¬(r.status = 429 ∧ st.used < MAX_RETRIES_PER_REQUEST) := by
      simp [h200]
    simp only [runFetch]
    rw [if_neg hnot429, if_neg (by simp [h200]), if_neg (by simp [hjson])]
    rcases htok with ht | ht <;> rw [ht] <;>
      refine ⟨?_, by simp⟩ <;>
      · simp [reqCount, List.countP_append]
        intro a _ _ ha
        subst ha
        rfl

/-- Counterexample for C6 as stated: a page whose payload carries the
empty-string token terminates pagination with zero additional
requests — not "exactly one additional request beyond what produced
it". With a second response available, the run still issues exactly
one request, not two. -/
theorem c6_counterexample :
    fetch_stock_bars ["SPY"] 100 0 [c6resp, c6resp] =
      .run (runFetch 0 [c6resp, c6resp] ⟨none, none, none, [], none, 0⟩)
    ∧ c6resp.nextPageToken = some ""
    ∧ reqCount (runFetch 0 [c6resp, c6resp] ⟨none, none, none, [], none, 0⟩) = 1
    ∧ ¬ reqCount (runFetch 0 [c6resp, c6resp] ⟨none, none, none, [], none, 0⟩) = 2 := by
  refine ⟨by decide, rfl, by decide, by decide⟩

/-- Witness for the amended C6 at a concrete input: the empty-string
and absent tokens give the same fetch outcome, and the page carrying
one is the final (only) request. -/
theorem c6_witness :
    runFetch 0 [setTok c6resp (some ""), c6resp] ⟨none, none, none, [], none, 0⟩ =
      runFetch 0 [setTok c6resp none, c6resp] ⟨none, none, none, [], none, 0⟩
    ∧ reqCount (runFetch 0 [c6resp, c6resp] ⟨none, none, none, [], none, 0⟩) = 1
    ∧ (runFetch 0 [c6resp, c6resp] ⟨none, none, none, [], none, 0⟩).res =
        .ok ⟨mergePage [] c6resp.bars, c6resp.currency⟩ := by
  have h := c6_empty_token_equals_absent 0 c6resp [c6resp]
    ⟨none, none, none, [], none, 0⟩
  exact ⟨h.1, (h.2 rfl rfl (Or.inr rfl)).1, (h.2 rfl rfl (Or.inr rfl)).2⟩

/-- Amended C5: the carried remaining/reset state is updated only from
the final response of each page's retry loop — a 429 response that gets
retried leaves the carried state unchanged for the retry request —
and the update applies each header that is present and parsable,
keeping the prior value for an absent or unparsable header; on
continuation to the next page, the state passed on is exactly
`updOpt` of the final response's headers. -/
theorem c5_state_update_policy (now : ℚ) (r : Response) (rest : List Response)
    (st : FetchState) :
    ((r.status = 429 ∧ st.used < MAX_RETRIES_PER_REQUEST) →
      (bumpRetry st).rem = st.rem ∧ (bumpRetry st).res = st.res ∧
      runFetch now (r :: rest) st =
        withTrace
          (((if st.used = 0 then
              (if 0 < computeProactiveWait now st.rem st.res then
                [Ev.sleepPro (computeProactiveWait now st.rem st.res)] else []) else []) ++
            [Ev.request st.tok st.rem st.res]) ++
            [Ev.sleepRetry st.used (computeSleep429 now r st.used).1])
          (runFetch now rest (bumpRetry st)))
    ∧ (∀ z, updOpt (.val z) st.rem = some z)
    ∧ (updOpt .absent st.rem = st.rem ∧ updOpt .unparsable st.rem = st.rem)
    ∧ (¬(r.status = 429 ∧ st.used < MAX_RETRIES_PER_REQUEST) → r.status = 200 →
        r.jsonOk = true → ∀ t, r.nextPageToken = some t → t ≠ "" →
        runFetch now (r :: rest) st =
          withPage r.bars (withTrace
            ((if st.used = 0 then
                (if 0 < computeProactiveWait now st.rem st.res then
                  [Ev.sleepPro (computeProactiveWait now st.rem st.res)] else []) else []) ++
              [Ev.request st.tok st.rem st.res])
            (runFetch now rest
              ⟨some t, updOpt r.rlRemaining st.rem, updOpt r.rlReset st.res,
               mergePage st.merged r.bars,
               (match st.cur with
                 | some c => some c
                 | none => r.currency), 0⟩))) := by
  refine ⟨?_, fun z => rfl, ⟨rfl, rfl⟩, ?_⟩
  · intro hc
    exact ⟨rfl, rfl, by
      have h := runFetch_retry_step now r rest st hc.1 hc.2
      rw [h]⟩
  · intro hnot h200 hjson t ht htne
    simp only [runFetch]
    rw [if_neg hnot, if_neg (by simp [h200]), if_neg (by simp [hjson]), ht]
    simp [htne]

/-- Counterexample for C5 as stated: in this concrete run the first
response is a 429 carrying `X-RateLimit-Remaining: 0` and
`X-RateLimit-Reset: 2000`, yet the retry request (and the next page
request) are issued with the carried state still empty — the retried
429 response's headers are never extracted into the carried state. -/
theorem c5_counterexample :
    fetch_stock_bars ["SPY"] 100 1000 c5rs =
      .run (runFetch 1000 c5rs ⟨none, none, none, [], none, 0⟩)
    ∧ c5r1.status = 429
    ∧ c5r1.rlRemaining = .val 0
    ∧ c5r1.rlReset = .val 2000
    ∧ claimC5Holds c5rs (runFetch 1000 c5rs ⟨none, none, none, [], none, 0⟩) = false := by
  refine ⟨by decide, rfl, rfl, rfl, by decide⟩

/-- Witness for the amended C5 at concrete inputs: a retried 429 keeps
the carried state, a parsable header overwrites, an absent one keeps
the old value. -/
theorem c5_witness :
    (bumpRetry ⟨none, none, none, [], none, 0⟩).rem = (none : Option ℤ)
    ∧ updOpt (.val 7) (some (3 : ℤ)) = some 7
    ∧ updOpt .absent (some (3 : ℤ)) = some 3 := by
  have h1 := c5_state_update_policy 0 w429 [] ⟨none, none, none, [], none, 0⟩
  have h2 := c5_state_update_policy 0 w429 [] ⟨none, some 3, none, [], none, 0⟩
  exact ⟨(h1.1 ⟨rfl, by norm_num [MAX_RETRIES_PER_REQUEST]⟩).1,
    h2.2.1 7, h2.2.2.1.1⟩

/-- Accumulated bars of one symbol, unfolded over a cons cell. -/
theorem symBars_cons (e : String × List RawBar) (t : Page) (s : String) :
    symBars (e :: t) s = (if e.1 = s then e.2 else []) ++ symBars t s := by
  by_cases h : e.1 = s <;> simp [symBars, h, List.filter_cons]

/-- A symbol absent from the keys has no accumulated bars. -/
theorem symBars_eq_nil_of_not_mem (m : Page) (s : String)
    (h : s ∉ m.map Prod.fst) : symBars m s = [] := by
  induction m with
  | nil => rfl
  | cons e t ih =>
    simp only [List.map_cons, List.mem_cons] at h
    push_neg at h
    rw [symBars_cons, if_neg (fun he => h.1 he.symm), ih h.2, List.nil_append]

/-- Keys after one merge step: unchanged when the symbol was already
present, else the symbol is appended. -/
theorem addBars_keys (m : Page) (s : String) (bl : List RawBar) :
    (addBars m s bl).map Prod.fst =
      if s ∈ m.map Prod.fst then m.map Prod.fst else m.map Prod.fst ++ [s] := by
  induction m with
  | nil => simp [addBars]
  | cons e t ih =>
    by_cases he : e.1 = s
    · simp [addBars, he]
    · simp only [addBars, if_neg he, List.map_cons, ih, List.mem_cons]
      by_cases hm : s ∈ t.map Prod.fst
      · rw [if_pos hm, if_pos (Or.inr hm)]
      · have hni : ¬(s = e.1 ∨ s ∈ List.map Prod.fst t) := by
          rintro (h' | h')
          · exact he h'.symm
          · exact hm h'
        rw [if_neg hm, if_neg hni, List.cons_append]

/-- One merge step preserves key uniqueness. -/
theorem addBars_keys_nodup (m : Page) (s : String) (bl : List RawBar)
    (h : (m.map Prod.fst).Nodup) : ((addBars m s bl).map Prod.fst).Nodup := by
  rw [addBars_keys]
  by_cases hm : s ∈ m.map Prod.fst
  · rwa [if_pos hm]
  · rw [if_neg hm]
    simp [List.nodup_append, h, hm]

/-- One merge step appends the incoming bars to exactly the matching
symbol's accumulated list. -/
theorem symBars_addBars (m : Page) (s' s : String) (bl : List RawBar)
    (h : (m.map Prod.fst).Nodup) :
    symBars (addBars m s bl) s' = symBars m s' ++ (if s' = s then bl else []) := by
  induction m with
  | nil =>
    by_cases hs : s' = s
    · subst hs; simp [addBars, symBars_cons, symBars]
    · simp [addBars, symBars_cons, symBars, Ne.symm hs, hs]
  | cons e t ih =>
    simp only [List.map_cons, List.nodup_cons] at h
    by_cases he : e.1 = s
    · simp only [addBars, if_pos he]
      rw [symBars_cons, symBars_cons]
      by_cases hs : s' = s
      · have he' : e.1 = s' := by rw [he, hs]
        have ht : symBars t s' = [] := by
          refine symBars_eq_nil_of_not_mem t s' (fun hmem => h.1 ?_)
          rwa [he']
        rw [if_pos he', if_pos he', ht, if_pos hs]
        simp
      · have he' : e.1 ≠ s' := by rw [he]; exact fun hsym => hs hsym.symm
        rw [if_neg he', if_neg he', if_neg hs]
        simp
    · simp only [addBars, if_neg he]
      rw [symBars_cons, symBars_cons, ih h.2]
      simp [List.append_assoc]

/-- Merging a whole page appends, per symbol, the page's bars for that
symbol onto the accumulator. -/
theorem symBars_mergePage (p : Page) :
    ∀ (m : Page), (m.map Prod.fst).Nodup → ∀ s,
      symBars (mergePage m p) s = symBars m s ++ symBars p s := by
  induction p with
  | nil => intro m _ s; simp [mergePage, symBars]
  | cons e t ih =>
    intro m h s
    simp only [mergePage, List.foldl_cons] at ih ⊢
    rw [ih (addBars m e.1 e.2) (addBars_keys_nodup m e.1 e.2 h) s,
      symBars_addBars m s e.1 e.2 h, symBars_cons]
    by_cases hs : e.1 = s
    · rw [if_pos hs, if_pos hs.symm]
      simp [List.append_assoc]
    · rw [if_neg hs, if_neg (fun h' => hs h'.symm)]
      simp

/-- Merging a whole page preserves key uniqueness. -/
theorem mergePage_keys_nodup (p : Page) :
    ∀ (m : Page), (m.map Prod.fst).Nodup → ((mergePage m p).map Prod.fst).Nodup := by
  induction p with
  | nil => intro m h; exact h
  | cons e t ih =>
    intro m h
    simp only [mergePage, List.foldl_cons] at ih ⊢
    exact ih (addBars m e.1 e.2) (addBars_keys_nodup m e.1 e.2 h)

/-- Loop invariant for C8: on a successful run, each symbol's final bar
list is the accumulator's list followed by the per-page lists of the
successfully merged pages, concatenated in page order. -/
theorem runFetch_merge_invariant (now : ℚ) :
    ∀ (resps : List Response) (st : FetchState),
      (st.merged.map Prod.fst).Nodup → ∀ b, (runFetch now resps st).res = .ok b →
      ∀ s, symBars b.bars s =
        symBars st.merged s ++
          ((runFetch now resps st).pages.map (fun p => symBars p s)).flatten := by
  intro resps
  induction resps with
  | nil =>
    intro st _ b hb s
    simp [runFetch] at hb
  | cons r rest ih =>
    intro st h b hb s
    by_cases hc : r.status = 429 ∧ st.used < MAX_RETRIES_PER_REQUEST
    · rw [runFetch_retry_step now r rest st hc.1 hc.2] at hb ⊢
      simp only [withTrace] at hb ⊢
      exact ih (bumpRetry st) h b hb s
    · simp only [runFetch] at hb ⊢
      rw [if_neg hc] at hb ⊢
      by_cases h200 : r.status ≠ 200
      · rw [if_pos h200] at hb ⊢
        split at hb <;> simp at hb
      · rw [if_neg h200] at hb ⊢
        by_cases hjson : r.jsonOk = false
        · rw [if_pos hjson] at hb ⊢
          simp at hb
        · rw [if_neg hjson] at hb ⊢
          revert hb
          cases ht : r.nextPageToken with
          | none =>
            intro hb
            dsimp only at hb ⊢
            have hb' : FetchRes.ok
                ⟨mergePage st.merged r.bars,
                 (match st.cur with
                   | some c => some c
                   | none => r.currency)⟩ = .ok b := hb
            injection hb' with hbe
            subst hbe
            rw [symBars_mergePage r.bars st.merged h s]
            simp
          | some t =>
            intro hb
            dsimp only at hb ⊢
            by_cases hte : t = ""
            · rw [if_pos hte] at hb ⊢
              have hb' : FetchRes.ok
                  ⟨mergePage st.merged r.bars,
                   (match st.cur with
                     | some c => some c
                     | none => r.currency)⟩ = .ok b := hb
              injection hb' with hbe
              subst hbe
              rw [symBars_mergePage r.bars st.merged h s]
              simp
            · rw [if_neg hte] at hb ⊢
              simp only [withPage, withTrace] at hb ⊢
              have hres := ih
                ⟨some t, updOpt r.rlRemaining st.rem, updOpt r.rlReset st.res,
                 mergePage st.merged r.bars,
                 (match st.cur with
                   | some c => some c
                   | none => r.currency), 0⟩
                (mergePage_keys_nodup r.bars st.merged h) b hb s
              rw [hres, symBars_mergePage r.bars st.merged h s]
              simp [List.append_assoc]

/-- C8: for every valid call and every successful run, the merged
result contains, per symbol, exactly the concatenation of that symbol's
per-page bar lists in original page order, and its length is the sum of
the per-page lengths. -/
theorem c8_merged_bars_concatenation (symbols : List String) (lim : ℤ)
    (now : ℚ) (resps : List Response) (o : FetchOut) (b : BarsResp)
    (hl1 : 1 ≤ lim) (hl2 : lim ≤ 10000) (hsym : normalizeSymbols symbols ≠ [])
    (hrun : fetch_stock_bars symbols lim now resps = .run o)
    (hok : o.res = .ok b) (s : String) :
    symBars b.bars s = (o.pages.map (fun p => symBars p s)).flatten
    ∧ (symBars b.bars s).length =
        (o.pages.map (fun p => (symBars p s).length)).sum := by
  have hLim : ¬(lim < 1 ∨ 10000 < lim) := by
    push_neg
    exact ⟨by omega, by omega⟩
  unfold fetch_stock_bars at hrun
  rw [if_neg hLim, if_neg hsym] at hrun
  have ho : o = runFetch now resps ⟨none, none, none, [], none, 0⟩ := by
    injection hrun with h'
    exact h'.symm
  subst ho
  have h := runFetch_merge_invariant now resps ⟨none, none, none, [], none, 0⟩
    (by simp) b hok s
  have h1 : symBars b.bars s =
      ((runFetch now resps ⟨none, none, none, [], none, 0⟩).pages.map
        (fun p => symBars p s)).flatten := by
    simpa [symBars] using h
  refine ⟨h1, ?_⟩
  rw [h1, List.length_flatten, List.map_map]
  rfl

/-- Witness for C8 at a concrete two-page run: AAPL's merged list is
the concatenation of its page lists and the lengths add up. -/
theorem c8_witness :
    symBars [("AAPL", [1, 2, 3]), ("TSLA", [4, 5])] "AAPL" =
      (((runFetch 0 [c8p1, c8p2] ⟨none, none, none, [], none, 0⟩).pages.map
        (fun p => symBars p "AAPL")).flatten)
    ∧ (symBars [("AAPL", [1, 2, 3]), ("TSLA", [4, 5])] "AAPL").length =
        ((runFetch 0 [c8p1, c8p2] ⟨none, none, none, [], none, 0⟩).pages.map
          (fun p => (symBars p "AAPL").length)).sum := by
  have h := c8_merged_bars_concatenation ["AAPL"] 100 0 [c8p1, c8p2]
    (runFetch 0 [c8p1, c8p2] ⟨none, none, none, [], none, 0⟩)
    ⟨[("AAPL", [1, 2, 3]), ("TSLA", [4, 5])], some "USD"⟩
    (by norm_num) (by norm_num) (by decide) (by decide) (by decide) "AAPL"
  exact h

/-- Elements produced by `uniqueFirstAux` come from the input and avoid
the seen set. -/
theorem mem_uniqueFirstAux {α : Type} [DecidableEq α] :
    ∀ (l seen : List α) (x : α),
      x ∈ uniqueFirstAux l seen ↔ (x ∈ l ∧ x ∉ seen) := by
  intro l
  induction l with
  | nil => intro seen x; simp [uniqueFirstAux]
  | cons a t ih =>
    intro seen x
    by_cases ha : a ∈ seen
    · rw [uniqueFirstAux, if_pos ha, ih]
      constructor
      · exact fun h => ⟨List.mem_cons_of_mem a h.1, h.2⟩
      · rintro ⟨hx, hns⟩
        rcases List.mem_cons.mp hx with rfl | hx'
        · exact absurd ha hns
        · exact ⟨hx', hns⟩
    · rw [uniqueFirstAux, if_neg ha]
      constructor
      · intro h
        rcases List.mem_cons.mp h with rfl | h'
        · exact ⟨List.mem_cons_self _ _, ha⟩
        · have := (ih (a :: seen) x).mp h'
          exact ⟨List.mem_cons_of_mem a this.1,
            fun hs => this.2 (List.mem_cons_of_mem a hs)⟩
      · rintro ⟨hx, hns⟩
        rcases List.mem_cons.mp hx with rfl | hx'
        · exact List.mem_cons_self _ _
        · by_cases hxa : x = a
          · subst hxa; exact List.mem_cons_self _ _
          · exact List.mem_cons_of_mem a ((ih (a :: seen) x).mpr
              ⟨hx', by simp [List.mem_cons, hxa, hns]⟩)

/-- `uniqueFirst` keeps exactly the members of the input. -/
theorem mem_uniqueFirst {α : Type} [DecidableEq α] (l : List α) (x : α) :
    x ∈ uniqueFirst l ↔ x ∈ l := by
  rw [uniqueFirst, mem_uniqueFirstAux]
  simp

/-- `uniqueFirstAux` has no duplicates. -/
theorem nodup_uniqueFirstAux {α : Type} [DecidableEq α] :
    ∀ (l seen : List α), (uniqueFirstAux l seen).Nodup := by
  intro l
  induction l with
  | nil => intro seen; simp [uniqueFirstAux]
  | cons a t ih =>
    intro seen
    by_cases ha : a ∈ seen
    · rw [uniqueFirstAux, if_pos ha]; exact ih seen
    · rw [uniqueFirstAux, if_neg ha]
      refine List.nodup_cons.mpr ⟨fun hmem => ?_, ih (a :: seen)⟩
      exact ((mem_uniqueFirstAux t (a :: seen) a).mp hmem).2 (List.mem_cons_self _ _)

/-- `uniqueFirst` has no duplicates. -/
theorem nodup_uniqueFirst {α : Type} [DecidableEq α] (l : List α) :
    (uniqueFirst l).Nodup := nodup_uniqueFirstAux l []

/-- `firstBadPair` finds nothing exactly when adjacent timestamps are
strictly increasing. -/
theorem firstBadPair_eq_none_iff :
    ∀ (l : List (Nat × Row)),
      firstBadPair l = none ↔ l.Chain' (fun p q => p.2.ts < q.2.ts) := by
  intro l
  match l with
  | [] => simp [firstBadPair]
  | [p] => simp [firstBadPair]
  | p :: q :: rest =>
    rw [firstBadPair, List.chain'_cons]
    by_cases hpq : q.2.ts - p.2.ts ≤ 0
    · rw [if_pos hpq]
      simp only [reduceCtorEq, false_iff, not_and]
      intro hlt
      omega
    · rw [if_neg hpq, firstBadPair_eq_none_iff (q :: rest)]
      have : p.2.ts < q.2.ts := by omega
      simp [this]

/-- A hit of `firstBadPair` is an adjacent pair with non-positive
delta. -/
theorem firstBadPair_eq_some :
    ∀ (l : List (Nat × Row)) (p q : Nat × Row),
      firstBadPair l = some (p, q) →
      ∃ l1 l2, l = l1 ++ p :: q :: l2 ∧ q.2.ts - p.2.ts ≤ 0 := by
  intro l
  match l with
  | [] => intro p q h; simp [firstBadPair] at h
  | [x] => intro p q h; simp [firstBadPair] at h
  | a :: b :: rest =>
    intro p q h
    rw [firstBadPair] at h
    by_cases hab : b.2.ts - a.2.ts ≤ 0
    · rw [if_pos hab] at h
      obtain ⟨rfl, rfl⟩ : a = p ∧ b = q := by
        have := Option.some.inj h
        exact ⟨congrArg Prod.fst this, congrArg Prod.snd this⟩
      exact ⟨[], rest, rfl, hab⟩
    · rw [if_neg hab] at h
      obtain ⟨l1, l2, heq, hle⟩ := firstBadPair_eq_some (b :: rest) p q h
      exact ⟨a :: l1, l2, by rw [List.cons_append, heq], hle⟩

/-- Projecting the rows back out of an index-filtered enumeration gives
the plain filtered rows. -/
theorem enumFrom_filter_map_snd (q : Row → Bool) :
    ∀ (l : List Row) (n : Nat),
      ((List.enumFrom n l).filter (fun p => q p.2)).map Prod.snd = l.filter q := by
  intro l
  induction l with
  | nil => intro n; rfl
  | cons a t ih =>
    intro n
    by_cases hq : q a
    · simp [List.enumFrom, List.filter_cons, hq, ih]
    · simp [List.enumFrom, List.filter_cons, hq, ih]

/-- The row-projection of the validator's per-symbol indexed frame. -/
theorem symDf_map_snd (df : List Row) (s : String) :
    ((df.enum.filter (fun p => p.2.symbol = s)).map Prod.snd) =
      df.filter (fun r => r.symbol = s) := by
  have := enumFrom_filter_map_snd (fun r => decide (r.symbol = s)) df 0
  simpa [List.enum] using this

/-- Facts about a `firstBadPair` hit inside the sorted indexed frame:
the two rows carry equal timestamps, the offending row's original index
is strictly larger, and the timestamp occurs at least twice. -/
theorem firstBadPair_sorted_facts (l : List (Nat × Row)) (p q : Nat × Row)
    (hs : List.Sorted tsIdxLe l) (hn : (l.map Prod.fst).Nodup)
    (hsome : firstBadPair l = some (p, q)) :
    p.2.ts = q.2.ts ∧ p.1 < q.1 ∧ 2 ≤ l.length ∧
      2 ≤ l.countP (fun x => x.2.ts = p.2.ts) := by
  obtain ⟨l1, l2, heq, hle⟩ := firstBadPair_eq_some l p q hsome
  have hsub : List.Sublist [p, q] l := by
    rw [heq]
    exact (((List.nil_sublist l2).cons₂ q).cons₂ p).trans
      (List.sublist_append_right l1 _)
  have hrel : tsIdxLe p q := by
    have hpw : List.Pairwise tsIdxLe [p, q] := hs.sublist hsub
    exact List.rel_of_pairwise_cons hpw (List.mem_cons_self _ _)
  have hts : p.2.ts = q.2.ts := by
    rcases hrel with h | ⟨h, _⟩
    · omega
    · exact h
  have hidx : p.1 ≠ q.1 := by
    have hpw : List.Pairwise (fun a b : Nat × Row => a.1 ≠ b.1) l :=
      List.pairwise_map.mp hn
    exact List.rel_of_pairwise_cons (hpw.sublist hsub) (List.mem_cons_self _ _)
  have hlt : p.1 < q.1 := by
    rcases hrel with h | ⟨_, h⟩
    · omega
    · omega
  refine ⟨hts, hlt, ?_, ?_⟩
  · rw [heq]
    simp
    omega
  · calc (2 : Nat) = [p, q].countP (fun x => x.2.ts = p.2.ts) := by
          simp [List.countP_cons, hts]
    _ ≤ l.countP (fun x => x.2.ts = p.2.ts) := hsub.countP_le _

/-- The timestamps of the sorted indexed frame are exactly the
timestamps of the symbol's rows, up to permutation. -/
theorem sorted_ts_perm (df : List Row) (s : String) :
    (((df.enum.filter (fun p => p.2.symbol = s)).insertionSort tsIdxLe).map
      (fun x => x.2.ts)).Perm
      ((df.filter (fun r => r.symbol = s)).map (fun r => r.ts)) := by
  have h1 := (List.perm_insertionSort tsIdxLe
    (df.enum.filter (fun p => p.2.symbol = s))).map (fun x : Nat × Row => x.2.ts)
  refine h1.trans ?_
  rw [← symDf_map_snd df s, List.map_map]
  exact List.Perm.refl _

/-- With pairwise-distinct timestamps for the symbol, the monotonic
check finds nothing: sorting makes the deltas strictly positive. -/
theorem nonMonoForSymbol_eq_none (df : List Row) (s : String)
    (hnd : ((df.filter (fun r => r.symbol = s)).map (fun r => r.ts)).Nodup) :
    nonMonoForSymbol df s = none := by
  have hnds : (((df.enum.filter (fun p => p.2.symbol = s)).insertionSort
      tsIdxLe).map (fun x => x.2.ts)).Nodup :=
    (sorted_ts_perm df s).nodup_iff.mpr hnd
  unfold nonMonoForSymbol
  by_cases hlen : 1 < ((df.enum.filter
      (fun p => p.2.symbol = s)).insertionSort tsIdxLe).length
  · rw [if_pos hlen]
    cases hfb : firstBadPair ((df.enum.filter
        (fun p => p.2.symbol = s)).insertionSort tsIdxLe) with
    | none => rfl
    | some pq =>
      obtain ⟨p, q⟩ := pq
      have hfacts := firstBadPair_sorted_facts _ p q
        (List.sorted_insertionSort tsIdxLe _)
        (by
          have : ((df.enum.filter (fun x => x.2.symbol = s)).insertionSort
              tsIdxLe).Perm (df.enum.filter (fun x => x.2.symbol = s)) :=
            List.perm_insertionSort _ _
          refine ((this.map Prod.fst).nodup_iff).mpr ?_
          have hsub : List.Sublist
              ((df.enum.filter (fun x => x.2.symbol = s)).map Prod.fst)
              (df.enum.map Prod.fst) :=
            (List.filter_sublist _).map Prod.fst
          exact (List.enum_map_fst df ▸ hsub).nodup (List.nodup_range _))
        hfb
      exfalso
      obtain ⟨l1, l2, heq, -⟩ := firstBadPair_eq_some _ p q hfb
      have hsub : List.Sublist [p, q] ((df.enum.filter
          (fun p => p.2.symbol = s)).insertionSort tsIdxLe) := by
        rw [heq]
        exact (((List.nil_sublist l2).cons₂ q).cons₂ p).trans
          (List.sublist_append_right l1 _)
      have hpw : List.Pairwise (fun a b : Nat × Row => a.2.ts ≠ b.2.ts) _ :=
        List.pairwise_map.mp hnds
      exact List.rel_of_pairwise_cons (hpw.sublist hsub)
        (List.mem_cons_self _ _) hfacts.1
  · rw [if_neg hlen]

/-- The original index labels of the sorted per-symbol frame are
pairwise distinct. -/
theorem sorted_fst_nodup (df : List Row) (s : String) :
    (((df.enum.filter (fun p => p.2.symbol = s)).insertionSort
      tsIdxLe).map Prod.fst).Nodup := by
  have hperm : ((df.enum.filter (fun x => x.2.symbol = s)).insertionSort
      tsIdxLe).Perm (df.enum.filter (fun x => x.2.symbol = s)) :=
    List.perm_insertionSort _ _
  refine ((hperm.map Prod.fst).nodup_iff).mpr ?_
  have hsub : List.Sublist
      ((df.enum.filter (fun x => x.2.symbol = s)).map Prod.fst)
      (df.enum.map Prod.fst) :=
    (List.filter_sublist _).map Prod.fst
  exact (List.enum_map_fst df ▸ hsub).nodup (List.nodup_range _)

/-- With a repeated timestamp for the symbol, the monotonic check
reports exactly the first adjacent equal-timestamp pair of the sorted
frame: an example with equal previous/offending timestamps whose
timestamp occurs at least twice among the symbol's rows. -/
theorem nonMonoForSymbol_eq_some_of_dup (df : List Row) (s : String)
    (hnd : ¬ ((df.filter (fun r => r.symbol = s)).map (fun r => r.ts)).Nodup) :
    ∃ e, nonMonoForSymbol df s = some e ∧ e.symbol = s ∧ e.prevTs = e.nextTs ∧
      2 ≤ df.countP (fun r => r.symbol = s ∧ r.ts = e.prevTs) := by
  set Ls := (df.enum.filter (fun p => p.2.symbol = s)).insertionSort tsIdxLe
    with hLs
  have hperm := sorted_ts_perm df s
  rw [← hLs] at hperm
  have hnds : ¬ (Ls.map (fun x => x.2.ts)).Nodup :=
    fun h => hnd (hperm.nodup_iff.mp h)
  cases hfb : firstBadPair Ls with
  | none =>
    exfalso
    have hchain : Ls.Chain' (fun p q => p.2.ts < q.2.ts) :=
      (firstBadPair_eq_none_iff Ls).mp hfb
    have hmapchain : (Ls.map (fun x => x.2.ts)).Chain' (· < ·) :=
      (List.chain'_map _).mpr hchain
    have hpw : (Ls.map (fun x => x.2.ts)).Pairwise (· < ·) :=
      List.chain'_iff_pairwise.mp hmapchain
    exact hnds (hpw.imp (fun h => ne_of_lt h))
  | some pq =>
    obtain ⟨p, q⟩ := pq
    have hsorted : List.Sorted tsIdxLe Ls := by
      rw [hLs]
      exact List.sorted_insertionSort tsIdxLe _
    have hnfst : (Ls.map Prod.fst).Nodup := by
      rw [hLs]
      exact sorted_fst_nodup df s
    obtain ⟨hts, hlt, hlen, hcnt⟩ :=
      firstBadPair_sorted_facts Ls p q hsorted hnfst hfb
    refine ⟨⟨s, p.2.ts, q.2.ts⟩, ?_, rfl, hts, ?_⟩
    · simp only [nonMonoForSymbol]
      rw [← hLs, if_pos (by omega), hfb]
      dsimp only
      rw [if_pos (by omega)]
    · have h1 : Ls.countP (fun x => x.2.ts = p.2.ts) =
          (df.enum.filter (fun x => x.2.symbol = s)).countP
            (fun x => x.2.ts = p.2.ts) := by
        refine List.Perm.countP_eq _ ?_
        rw [hLs]
        exact List.perm_insertionSort _ _
      rw [h1, List.countP_filter] at hcnt
      have h2 : df.countP (fun r => decide (r.symbol = s ∧ r.ts = p.2.ts)) =
          df.enum.countP
            (fun a => decide (a.2.ts = p.2.ts) && decide (a.2.symbol = s)) := by
        conv_lhs => rw [← List.enum_map_snd df]
        rw [List.countP_map]
        refine List.countP_congr ?_
        intro a _
        simp only [Function.comp, Bool.and_comm, decide_eq_true_eq,
          Bool.and_eq_true]
        tauto
      calc (2 : Nat) ≤ _ := hcnt
      _ = df.countP (fun r => decide (r.symbol = s ∧ r.ts = p.2.ts)) := h2.symm

/-- Every reported non-monotonic example carries the symbol it was
computed for. -/
theorem nonMonoForSymbol_symbol (df : List Row) (s' : String) (e : NMEntry)
    (h : nonMonoForSymbol df s' = some e) : e.symbol = s' := by
  simp only [nonMonoForSymbol] at h
  split at h
  · split at h
    · split at h
      · injection h with h'
        subst h'
        rfl
      · exact absurd h (by simp)
    · exact absurd h (by simp)
  · exact absurd h (by simp)

/-- Per-symbol count of reported non-monotonic examples: one if the
symbol occurs and its check fires, zero otherwise. -/
theorem countP_nonMonoList (df : List Row) (s : String) :
    (nonMonoList df).countP (fun e => e.symbol = s) =
      if s ∈ df.map (fun r => r.symbol) then
        (match nonMonoForSymbol df s with
         | some _ => 1
         | none => 0)
      else 0 := by
  have aux : ∀ (L : List String), L.Nodup →
      (L.filterMap (nonMonoForSymbol df)).countP (fun e => e.symbol = s) =
        if s ∈ L then
          (match nonMonoForSymbol df s with
           | some _ => 1
           | none => 0)
        else 0 := by
    intro L
    induction L with
    | nil => intro _; simp
    | cons a L ih =>
      intro hnd
      rw [List.nodup_cons] at hnd
      rw [List.filterMap_cons]
      cases hfa : nonMonoForSymbol df a with
      | none =>
        rw [ih hnd.2]
        by_cases hsa : s = a
        · subst hsa
          rw [if_neg hnd.1, if_pos (List.mem_cons_self _ _), hfa]
        · simp [List.mem_cons, hsa]
      | some e =>
        rw [List.countP_cons, ih hnd.2]
        have hesym : e.symbol = a := nonMonoForSymbol_symbol df a e hfa
        by_cases hsa : s = a
        · subst hsa
          rw [if_neg hnd.1, if_pos (List.mem_cons_self _ _), hfa]
          simp [hesym]
        · have : ¬ (e.symbol = s) := by
            rw [hesym]
            exact fun h' => hsa h'.symm
          simp [List.mem_cons, hsa, this]
  have h := aux (uniqueFirst (df.map (fun r => r.symbol)))
    (nodup_uniqueFirst _)
  unfold nonMonoList
  rw [h]
  simp only [mem_uniqueFirst]

/-- Amended C1: per symbol, after (stable) sorting by ts, an adjacent
pair with non-positive time delta — necessarily an equal-timestamp
pair, since sorting makes deltas non-negative — is a violation; the
report contains at most one example per symbol, exactly one (the first
occurrence, with equal previous/offending timestamps) for each symbol
with a repeated timestamp, and none for a symbol whose timestamps are
pairwise distinct. In particular a strictly ts-descending table is
reported clean, because the check sorts before differencing. -/
theorem c1_non_monotonic_policy (df : List Row) (s : String) :
    ((nonMonoList df).countP (fun e => e.symbol = s) ≤ 1)
    ∧ (((df.filter (fun r => r.symbol = s)).map (fun r => r.ts)).Nodup →
        (nonMonoList df).countP (fun e => e.symbol = s) = 0)
    ∧ (¬ ((df.filter (fun r => r.symbol = s)).map (fun r => r.ts)).Nodup →
        (nonMonoList df).countP (fun e => e.symbol = s) = 1 ∧
        ∃ e ∈ nonMonoList df, e.symbol = s ∧ e.prevTs = e.nextTs ∧
          2 ≤ df.countP (fun r => r.symbol = s ∧ r.ts = e.prevTs)) := by
  refine ⟨?_, ?_, ?_⟩
  · rw [countP_nonMonoList]
    split
    · split <;> omega
    · omega
  · intro hnd
    rw [countP_nonMonoList, nonMonoForSymbol_eq_none df s hnd]
    split <;> rfl
  · intro hnd
    obtain ⟨e, hfe, hsym, hts, hcnt⟩ := nonMonoForSymbol_eq_some_of_dup df s hnd
    have hsmem : s ∈ df.map (fun r => r.symbol) := by
      rcases hfilter : df.filter (fun r => r.symbol = s) with _ | ⟨r, rest⟩
      · exfalso
        apply hnd
        rw [hfilter]
        exact List.nodup_nil
      · have hr : r ∈ df.filter (fun r => r.symbol = s) := by
          rw [hfilter]
          exact List.mem_cons_self _ _
        have := List.of_mem_filter hr
        have hmem := List.mem_of_mem_filter hr
        exact List.mem_map.mpr ⟨r, hmem, by simpa using this⟩
    constructor
    · rw [countP_nonMonoList, if_pos hsmem, hfe]
    · refine ⟨e, ?_, hsym, hts, hcnt⟩
      unfold nonMonoList
      exact List.mem_filterMap.mpr ⟨s, (mem_uniqueFirst _ _).mpr hsmem, hfe⟩

/-- Counterexample for C1 as stated: a table whose rows are strictly
ts-descending for symbol "A" reports zero non-monotonic examples, not
exactly one — sorting by ts first turns the descending rows into an
ascending sequence with positive deltas. -/
theorem c1_counterexample :
    c1df.map (fun r => r.ts) = [2, 1]
    ∧ c1df.map (fun r => r.symbol) = ["A", "A"]
    ∧ (nonMonoList c1df).countP (fun e => e.symbol = "A") = 0
    ∧ ¬ (nonMonoList c1df).countP (fun e => e.symbol = "A") = 1 := by
  refine ⟨rfl, rfl, by decide, by decide⟩

/-- Witness for the amended C1 at a concrete input: a table with a
repeated timestamp for "A" gets exactly one example, and the
ts-distinct table of the counterexample gets zero. -/
theorem c1_witness :
    (nonMonoList c1dupDf).countP (fun e => e.symbol = "A") = 1
    ∧ (nonMonoList c1df).countP (fun e => e.symbol = "A") = 0 :=
  ⟨((c1_non_monotonic_policy c1dupDf "A").2.2 (by decide)).1,
   (c1_non_monotonic_policy c1df "A").2.1 (by decide)⟩

/-- A week-start label is a Monday 00:00:00 UTC instant: congruent to
345600 (Monday 1970-01-05) modulo the week length. -/
theorem weekStart_emod (t : ℤ) : weekStart t % 604800 = 345600 := by
  unfold weekStart
  have h := Int.ediv_add_emod (t - 345600) 604800
  have h2 : t - (t - 345600) % 604800 =
      345600 + 604800 * ((t - 345600) / 604800) := by omega
  rw [h2, Int.add_mul_emod_self_left]
  decide

/-- The week start is a lower bound of its bucket. -/
theorem weekStart_le (t : ℤ) : weekStart t ≤ t := by
  unfold weekStart
  have h := Int.emod_nonneg (t - 345600) (by norm_num : (604800 : ℤ) ≠ 0)
  omega

/-- The max-fold over highs dominates its seed. -/
theorem le_foldl_max : ∀ (bs : List Row) (init : ℚ),
    init ≤ bs.foldl (fun acc r => max acc r.h) init := by
  intro bs
  induction bs with
  | nil => intro init; exact le_refl init
  | cons b bs ih =>
    intro init
    exact le_trans (le_max_left init b.h) (ih (max init b.h))

/-- The max-fold over highs dominates every element. -/
theorem mem_le_foldl_max : ∀ (bs : List Row) (init : ℚ) (x : Row), x ∈ bs →
    x.h ≤ bs.foldl (fun acc r => max acc r.h) init := by
  intro bs
  induction bs with
  | nil => intro init x hx; simp at hx
  | cons b bs ih =>
    intro init x hx
    rcases List.mem_cons.mp hx with rfl | hx'
    · exact le_trans (le_max_right init x.h) (le_foldl_max bs (max init x.h))
    · exact ih (max init b.h) x hx'

/-- The max-fold over highs is attained by the seed or by a member. -/
theorem foldl_max_eq_init_or_mem : ∀ (bs : List Row) (init : ℚ),
    bs.foldl (fun acc r => max acc r.h) init = init ∨
      ∃ x ∈ bs, bs.foldl (fun acc r => max acc r.h) init = x.h := by
  intro bs
  induction bs with
  | nil => intro init; exact Or.inl rfl
  | cons b bs ih =>
    intro init
    rcases ih (max init b.h) with h | ⟨x, hx, h⟩
    · rcases max_choice init b.h with hm | hm
      · exact Or.inl (by rw [List.foldl_cons, h, hm])
      · exact Or.inr ⟨b, List.mem_cons_self _ _, by rw [List.foldl_cons, h, hm]⟩
    · exact Or.inr ⟨x, List.mem_cons_of_mem b hx, by rw [List.foldl_cons, h]⟩

/-- The min-fold over lows is below its seed. -/
theorem foldl_min_le : ∀ (bs : List Row) (init : ℚ),
    bs.foldl (fun acc r => min acc r.l) init ≤ init := by
  intro bs
  induction bs with
  | nil => intro init; exact le_refl init
  | cons b bs ih =>
    intro init
    exact le_trans (ih (min init b.l)) (min_le_left init b.l)

/-- The min-fold over lows is below every element. -/
theorem foldl_min_le_mem : ∀ (bs : List Row) (init : ℚ) (x : Row), x ∈ bs →
    bs.foldl (fun acc r => min acc r.l) init ≤ x.l := by
  intro bs
  induction bs with
  | nil => intro init x hx; simp at hx
  | cons b bs ih =>
    intro init x hx
    rcases List.mem_cons.mp hx with rfl | hx'
    · exact le_trans (foldl_min_le bs (min init x.l)) (min_le_right init x.l)
    · exact ih (min init b.l) x hx'

/-- The min-fold over lows is attained by the seed or by a member. -/
theorem foldl_min_eq_init_or_mem : ∀ (bs : List Row) (init : ℚ),
    bs.foldl (fun acc r => min acc r.l) init = init ∨
      ∃ x ∈ bs, bs.foldl (fun acc r => min acc r.l) init = x.l := by
  intro bs
  induction bs with
  | nil => intro init; exact Or.inl rfl
  | cons b bs ih =>
    intro init
    rcases ih (min init b.l) with h | ⟨x, hx, h⟩
    · rcases min_choice init b.l with hm | hm
      · exact Or.inl (by rw [List.foldl_cons, h, hm])
      · exact Or.inr ⟨b, List.mem_cons_self _ _, by rw [List.foldl_cons, h, hm]⟩
    · exact Or.inr ⟨x, List.mem_cons_of_mem b hx, by rw [List.foldl_cons, h]⟩

/-- In a chronologically sorted non-empty list, the last element is a
member and carries the maximal timestamp. -/
theorem sorted_getLastD : ∀ (l : List Row) (b : Row),
    List.Sorted tsLe (b :: l) →
      l.getLastD b ∈ b :: l ∧ ∀ x ∈ b :: l, x.ts ≤ (l.getLastD b).ts := by
  intro l
  induction l with
  | nil =>
    intro b _
    constructor
    · exact List.mem_cons_self _ _
    · intro x hx
      rcases List.mem_cons.mp hx with rfl | hx'
      · exact le_refl _
      · simp at hx'
  | cons b2 bs ih =>
    intro b hs
    rw [List.getLastD_cons]
    have htail : List.Sorted tsLe (b2 :: bs) := hs.of_cons
    obtain ⟨hmem, hbound⟩ := ih b2 htail
    refine ⟨List.mem_cons_of_mem b hmem, ?_⟩
    intro x hx
    rcases List.mem_cons.mp hx with rfl | hx'
    · exact le_trans (List.rel_of_sorted_cons hs b2 (List.mem_cons_self _ _))
        (hbound b2 (List.mem_cons_self _ _))
    · exact hbound x hx'

/-- Shape of a successful weekly aggregation. -/
theorem aggWeek_some (s : String) (meta : Row) (w : ℤ) (bucket : List Row)
    (row : Row) (h : aggWeek s meta w bucket = some row) :
    ∃ b bs, bucket = b :: bs ∧
      row = ⟨s, "1w", w, b.o, bs.foldl (fun acc r => max acc r.h) b.h,
        bs.foldl (fun acc r => min acc r.l) b.l, (bs.getLastD b).c,
        ((b :: bs).map (fun r => r.v)).sum, meta.source, meta.currency,
        meta.adjustment⟩ := by
  cases bucket with
  | nil => simp [aggWeek] at h
  | cons b bs =>
    refine ⟨b, bs, rfl, ?_⟩
    rw [aggWeek] at h
    injection h with h'
    exact h'.symm

/-- A weekly aggregation succeeds exactly on a non-empty bucket. -/
theorem aggWeek_isSome (s : String) (meta : Row) (w : ℤ) (bucket : List Row) :
    aggWeek s meta w bucket ≠ none ↔ bucket ≠ [] := by
  cases bucket with
  | nil => simp [aggWeek]
  | cons b bs => simp [aggWeek]

/-- The week bucket drawn from the sorted symbol frame is a permutation
of the (symbol, week) bucket of the original table. -/
theorem bucket_perm (df : List Row) (s : String) (w : ℤ) :
    ((sortByTs (df.filter (fun r => r.symbol = s))).filter
      (fun r => weekStart r.ts = w)).Perm (bucketOf df s w) := by
  have h1 : (sortByTs (df.filter (fun r => r.symbol = s))).Perm
      (df.filter (fun r => r.symbol = s)) := List.perm_insertionSort _ _
  have h2 := h1.filter (fun r => decide (weekStart r.ts = w))
  refine h2.trans ?_
  rw [List.filter_filter]
  have heq : df.filter
      (fun a => decide (weekStart a.ts = w) && decide (a.symbol = s)) =
      bucketOf df s w := by
    refine List.filter_congr ?_
    intro a _
    by_cases h1' : a.symbol = s <;> by_cases h2' : weekStart a.ts = w <;>
      simp [h1', h2', bucketOf]
  rw [heq]

/-- Full characterization of a row of one symbol's weekly part: its
symbol, "1w" timeframe, Monday-anchored timestamp, and its OHLCV
aggregates computed over a sorted enumeration of its bucket. -/
theorem weeklyPart_mem_spec (df : List Row) (s : String) (row : Row)
    (h : row ∈ weeklyPart df s) :
    row.symbol = s ∧ row.timeframe = "1w" ∧ row.ts % 604800 = 345600 ∧
    ∃ b bs, List.Sorted tsLe (b :: bs) ∧
      (b :: bs).Perm (bucketOf df s row.ts) ∧
      row.o = b.o ∧ row.h = bs.foldl (fun acc r => max acc r.h) b.h ∧
      row.l = bs.foldl (fun acc r => min acc r.l) b.l ∧
      row.c = (bs.getLastD b).c ∧
      row.v = ((b :: bs).map (fun r => r.v)).sum := by
  unfold weeklyPart at h
  rcases hss : sortByTs (df.filter (fun r => r.symbol = s)) with _ | ⟨m, rest⟩
  · rw [hss] at h
    simp at h
  · rw [hss] at h
    dsimp only at h
    obtain ⟨w', hw'mem, hagg⟩ := List.mem_filterMap.mp h
    obtain ⟨b, bs, hbucket, hrow⟩ := aggWeek_some s m w' _ row hagg
    have hsorted : List.Sorted tsLe (m :: rest) := by
      rw [← hss]
      exact List.sorted_insertionSort tsLe _
    have hsortedb : List.Sorted tsLe (b :: bs) := by
      rw [← hbucket]
      exact List.Pairwise.filter _ hsorted
    have hts : row.ts = w' := by rw [hrow]
    have hperm : (b :: bs).Perm (bucketOf df s row.ts) := by
      rw [hts, ← hbucket, ← hss]
      exact bucket_perm df s w'
    have hmod : row.ts % 604800 = 345600 := by
      rw [hts]
      obtain ⟨r, _, hrw⟩ := List.mem_map.mp ((mem_uniqueFirst _ _).mp hw'mem)
      rw [← hrw]
      exact weekStart_emod r.ts
    refine ⟨by rw [hrow], by rw [hrow], hmod, b, bs, hsortedb, hperm,
      by rw [hrow], by rw [hrow], by rw [hrow], by rw [hrow], by rw [hrow]⟩

/-- Count of rows at a given week inside one symbol's weekly part: one
if the (symbol, week) bucket is inhabited, zero otherwise. -/
theorem countP_weeklyPart (df : List Row) (s : String) (w : ℤ) :
    (weeklyPart df s).countP (fun r => r.symbol = s ∧ r.ts = w) =
      if bucketOf df s w = [] then 0 else 1 := by
  rcases hss : sortByTs (df.filter (fun r => r.symbol = s)) with _ | ⟨m, rest⟩
  · have hfe : df.filter (fun r => r.symbol = s) = [] := by
      have hperm : (sortByTs (df.filter (fun r => r.symbol = s))).Perm
          (df.filter (fun r => r.symbol = s)) := List.perm_insertionSort _ _
      rw [hss] at hperm
      exact hperm.symm.eq_nil
    have hbe : bucketOf df s w = [] := by
      rw [List.filter_eq_nil_iff] at hfe
      unfold bucketOf
      rw [List.filter_eq_nil_iff]
      intro a ha hcontra
      simp only [decide_eq_true_eq] at hcontra
      exact hfe a ha (by simp [hcontra.1])
    unfold weeklyPart
    rw [hss, if_pos hbe]
    rfl
  · unfold weeklyPart
    rw [hss]
    dsimp only
    have haux : ∀ (W : List ℤ), W.Nodup →
        (∀ w' ∈ W, ∃ r ∈ (m :: rest), weekStart r.ts = w') →
        ((W.filterMap (fun w' => aggWeek s m w'
          ((m :: rest).filter (fun r => weekStart r.ts = w')))).countP
            (fun r => r.symbol = s ∧ r.ts = w)) = if w ∈ W then 1 else 0 := by
      intro W
      induction W with
      | nil => intro _ _; simp
      | cons a W' ih =>
        intro hnd hex
        rw [List.nodup_cons] at hnd
        have hane : (m :: rest).filter (fun r => weekStart r.ts = a) ≠ [] := by
          obtain ⟨r, hr, hrw⟩ := hex a (List.mem_cons_self _ _)
          intro hcontra
          rw [List.filter_eq_nil_iff] at hcontra
          exact hcontra r hr (by simp [hrw])
        cases hga : aggWeek s m a ((m :: rest).filter
            (fun r => weekStart r.ts = a)) with
        | none => exact absurd hga (by
            intro hcontra
            exact ((aggWeek_isSome s m a _).mpr hane) hcontra)
        | some row =>
          rw [List.filterMap_cons, hga]
          dsimp only
          rw [List.countP_cons,
            ih hnd.2 (fun w' hw' => hex w' (List.mem_cons_of_mem a hw'))]
          obtain ⟨b, bs, -, hrow⟩ := aggWeek_some s m a _ row hga
          have hrs : row.symbol = s := by rw [hrow]
          have hrt : row.ts = a := by rw [hrow]
          by_cases hwa : w = a
          · subst hwa
            rw [if_neg hnd.1, if_pos (List.mem_cons_self _ _)]
            simp [hrs, hrt]
          · have hpred : ¬ (row.symbol = s ∧ row.ts = w) := by
              rintro ⟨-, hts2⟩
              exact hwa (by rw [← hts2, hrt])
            simp [List.mem_cons, hwa, hpred]
    rw [haux (uniqueFirst ((m :: rest).map (fun r => weekStart r.ts)))
      (nodup_uniqueFirst _) (by
        intro w' hw'
        obtain ⟨r, hr, hrw⟩ := List.mem_map.mp ((mem_uniqueFirst _ _).mp hw')
        exact ⟨r, hr, hrw⟩)]
    have hiff : w ∈ uniqueFirst ((m :: rest).map (fun r => weekStart r.ts)) ↔
        bucketOf df s w ≠ [] := by
      rw [mem_uniqueFirst]
      constructor
      · intro hmem
        obtain ⟨r, hr, hrw⟩ := List.mem_map.mp hmem
        rw [← hss] at hr
        rw [sortByTs, List.mem_insertionSort] at hr
        intro hcontra
        unfold bucketOf at hcontra
        rw [List.filter_eq_nil_iff] at hcontra
        refine hcontra r (List.mem_of_mem_filter hr) ?_
        have hsym := List.of_mem_filter hr
        simp only [decide_eq_true_eq] at hsym
        simp [hsym, hrw]
      · intro hne
        rcases hb : bucketOf df s w with _ | ⟨r, rest2⟩
        · exact absurd hb hne
        · have hr : r ∈ bucketOf df s w := by
            rw [hb]
            exact List.mem_cons_self _ _
          have hrpred := List.of_mem_filter hr
          simp only [decide_eq_true_eq] at hrpred
          have hrdf := List.mem_of_mem_filter hr
          have hrsorted : r ∈ m :: rest := by
            rw [← hss, sortByTs, List.mem_insertionSort]
            exact List.mem_filter.mpr ⟨hrdf, by simp [hrpred.1]⟩
          exact List.mem_map.mpr ⟨r, hrsorted, hrpred.2⟩
    by_cases hbe : bucketOf df s w = []
    · rw [if_pos hbe, if_neg (fun hmem => (hiff.mp hmem) hbe)]
    · rw [if_neg hbe, if_pos (hiff.mpr hbe)]

/-- Count of weekly output rows at a given (symbol, week): one if the
bucket is inhabited, zero otherwise. -/
theorem countP_to_weekly (df : List Row) (s : String) (w : ℤ) :
    (to_weekly df).countP (fun r => r.symbol = s ∧ r.ts = w) =
      if bucketOf df s w = [] then 0 else 1 := by
  by_cases hdf : df.isEmpty
  · have hdfe : df = [] := by
      cases df with
      | nil => rfl
      | cons a t => simp [List.isEmpty] at hdf
    subst hdfe
    simp [to_weekly, bucketOf]
  · rw [to_weekly, if_neg hdf,
      List.Perm.countP_eq _ (List.perm_insertionSort symTsLe _),
      List.countP_flatten]
    have haux : ∀ (L : List String), L.Nodup →
        ((L.map (weeklyPart df)).map
          (List.countP (fun r => decide (r.symbol = s ∧ r.ts = w)))).sum =
          if s ∈ L then
            (weeklyPart df s).countP (fun r => r.symbol = s ∧ r.ts = w)
          else 0 := by
      intro L
      induction L with
      | nil => intro _; simp
      | cons a L' ih =>
        intro hnd
        rw [List.nodup_cons] at hnd
        simp only [List.map_cons, List.sum_cons]
        rw [ih hnd.2]
        by_cases hsa : s = a
        · subst hsa
          rw [if_neg hnd.1, if_pos (List.mem_cons_self _ _)]
          simp
        · have hzero : (weeklyPart df a).countP
              (fun r => decide (r.symbol = s ∧ r.ts = w)) = 0 := by
            rw [List.countP_eq_zero]
            intro row hrow
            have hrs := (weeklyPart_mem_spec df a row hrow).1
            simp only [hrs, decide_eq_true_eq]
            rintro ⟨h', -⟩
            exact hsa h'.symm
          rw [hzero]
          simp [List.mem_cons, hsa]
    rw [haux (uniqueFirst (df.map (fun r => r.symbol))) (nodup_uniqueFirst _)]
    by_cases hsmem : s ∈ uniqueFirst (df.map (fun r => r.symbol))
    · rw [if_pos hsmem, countP_weeklyPart]
    · rw [if_neg hsmem]
      have hbe : bucketOf df s w = [] := by
        unfold bucketOf
        rw [List.filter_eq_nil_iff]
        intro a ha hcontra
        simp only [decide_eq_true_eq] at hcontra
        exact hsmem ((mem_uniqueFirst _ _).mpr
          (List.mem_map.mpr ⟨a, ha, hcontra.1⟩))
      rw [if_pos hbe]

/-- C3: for every daily table, symbol and week, `to_weekly` produces
exactly one output row per inhabited (symbol, Monday-anchored week)
bucket and none for empty buckets; every such row is a "1w" row whose
timestamp is a Monday 00:00:00 UTC instant, with open taken from a
minimal-timestamp contributing row, close from a maximal-timestamp
contributing row, high the maximum daily high, low the minimum daily
low, and volume the sum of the bucket's daily volumes. -/
theorem c3_weekly_resample (df : List Row) (s : String) (w : ℤ) :
    ((to_weekly df).countP (fun r => r.symbol = s ∧ r.ts = w) =
      if bucketOf df s w = [] then 0 else 1)
    ∧ (∀ row ∈ to_weekly df, row.symbol = s → row.ts = w →
        row.timeframe = "1w" ∧ w % 604800 = 345600
        ∧ (∃ r0 ∈ bucketOf df s w,
            (∀ r ∈ bucketOf df s w, r0.ts ≤ r.ts) ∧ row.o = r0.o)
        ∧ (∃ r1 ∈ bucketOf df s w,
            (∀ r ∈ bucketOf df s w, r.ts ≤ r1.ts) ∧ row.c = r1.c)
        ∧ (∀ r ∈ bucketOf df s w, r.h ≤ row.h)
        ∧ (∃ r ∈ bucketOf df s w, row.h = r.h)
        ∧ (∀ r ∈ bucketOf df s w, row.l ≤ r.l)
        ∧ (∃ r ∈ bucketOf df s w, row.l = r.l)
        ∧ row.v = ((bucketOf df s w).map (fun r => r.v)).sum) := by
  refine ⟨countP_to_weekly df s w, ?_⟩
  intro row hrow hsym hts
  by_cases hdf : df.isEmpty
  · rw [to_weekly, if_pos hdf] at hrow
    simp at hrow
  · rw [to_weekly, if_neg hdf, List.mem_insertionSort] at hrow
    obtain ⟨part, hpartmem, hrowmem⟩ := List.mem_flatten.mp hrow
    obtain ⟨s', hs'L, rfl⟩ := List.mem_map.mp hpartmem
    obtain ⟨hsym', htf, hmod, b, bs, hsorted, hperm, ho, hh, hl, hc, hv⟩ :=
      weeklyPart_mem_spec df s' row hrowmem
    have hs's : s' = s := by
      rw [← hsym']
      exact hsym
    subst hs's
    rw [hts] at hperm hmod
    refine ⟨htf, hmod, ?_, ?_, ?_, ?_, ?_, ?_, ?_⟩
    · refine ⟨b, hperm.mem_iff.mp (List.mem_cons_self _ _), ?_, ho⟩
      intro r hr
      rcases List.mem_cons.mp (hperm.mem_iff.mpr hr) with rfl | hr'
      · exact le_refl _
      · exact List.rel_of_sorted_cons hsorted r hr'
    · obtain ⟨hlmem, hlbound⟩ := sorted_getLastD bs b hsorted
      exact ⟨bs.getLastD b, hperm.mem_iff.mp hlmem,
        fun r hr => hlbound r (hperm.mem_iff.mpr hr), hc⟩
    · intro r hr
      rcases List.mem_cons.mp (hperm.mem_iff.mpr hr) with rfl | hr'
      · rw [hh]
        exact le_foldl_max bs r.h
      · rw [hh]
        exact mem_le_foldl_max bs b.h r hr'
    · rcases foldl_max_eq_init_or_mem bs b.h with he | ⟨x, hx, he⟩
      · exact ⟨b, hperm.mem_iff.mp (List.mem_cons_self _ _), by rw [hh, he]⟩
      · exact ⟨x, hperm.mem_iff.mp (List.mem_cons_of_mem b hx), by rw [hh, he]⟩
    · intro r hr
      rcases List.mem_cons.mp (hperm.mem_iff.mpr hr) with rfl | hr'
      · rw [hl]
        exact foldl_min_le bs r.l
      · rw [hl]
        exact foldl_min_le_mem bs b.l r hr'
    · rcases foldl_min_eq_init_or_mem bs b.l with he | ⟨x, hx, he⟩
      · exact ⟨b, hperm.mem_iff.mp (List.mem_cons_self _ _), by rw [hl, he]⟩
      · exact ⟨x, hperm.mem_iff.mp (List.mem_cons_of_mem b hx), by rw [hl, he]⟩
    · rw [hv]
      exact (hperm.map (fun r => r.v)).sum_eq

/-- Witness for C3 at a concrete input: two daily rows of one
Monday-anchored week aggregate to exactly one weekly row at Monday
00:00 UTC with the expected timeframe. -/
theorem c3_witness :
    (to_weekly c3df).countP (fun r => r.symbol = "A" ∧ r.ts = 345600) = 1
    ∧ (⟨"A", "1w", 345600, 10, 14, 9, 13, 150, "alpaca", "USD",
        "raw"⟩ : Row).timeframe = "1w"
    ∧ (345600 : ℤ) % 604800 = 345600 := by
  have h1 := (c3_weekly_resample c3df "A" 345600).1
  have h2 := (c3_weekly_resample c3df "A" 345600).2
    ⟨"A", "1w", 345600, 10, 14, 9, 13, 150, "alpaca", "USD", "raw"⟩
    (by decide) rfl rfl
  refine ⟨?_, h2.1, h2.2.1⟩
  rw [h1]
  decide

end OhlcvHub
